import Mathlib

/-!
# MultithreadedJobSystem: an interleaving model of `main.cpp`

The program is a pool of worker threads (`thread_work`) that pop `work_unit`s
from the global vector `work_queue` under the mutex `queue_lock` and call the
function stored in each unit, while `main` spawns the workers, fills the
queue, sleeps, clears the global `running` and joins the workers.

The embedding is a small-step transition system.  Every thread has a control
point named after the source line it is about to execute; `step` executes the
next statement of the chosen thread and a schedule (a list of thread ids) is
an interleaving.  A thread blocked on a mutex or in `join` leaves the state
unchanged.  Besides the globals of the source the state carries history
fields (`calls`, `deleted`, `freed`, `sleeps`, `output`) that only record
what has been done.

Conventions of the model:
* statements of different threads interleave one at a time, and a read of a
  global sees the last value written to it;
* a `std::mutex` is `none` when free and `some t` when thread `t` holds it;
* a pointer to a heap object is the object itself, `nullptr` is `none`, and a
  `work_unit` carries the address `new` returned for it, which is what tells
  two units apart;
* `thread_work` has no handler around the call of line 89: an exception
  raised by the called function leaves `thread_work` and that worker enters
  `std::terminate`; the other threads keep running until the worker's next
  step, the `abort()` that ends the process, after which no thread runs;
* `main` is run with any number of workers and any list of jobs; the numbers
  and jobs of the source are `sourceConfig`.
-/

namespace JobSystem

/-! ## Data model -/

/-- Class `generic` (lines 45-56): the payload base class; the only derived
class of the program is `hello_string`, which carries a `std::string`. -/
inductive generic where
  | hello_string (data : String)
  deriving DecidableEq, Repr

/-- Values of the function pointer `void(*func)(generic*)`: the four job
functions of the program, or a function supplied from elsewhere (`foreign`), of which
only the way it ends matters here (it returns, or it raises an exception). -/
inductive Func where
  | func_1
  | func_2
  | func_3
  | func_4
  | foreign (raises : Bool)
  deriving DecidableEq, Repr

/-- Class `work_unit` (lines 63-70).  `addr` is the address returned by
`new work_unit`, `g` is the payload pointer (`none` is `nullptr`). -/
structure work_unit where
  addr : Nat
  func : Func
  g : Option generic
  deriving DecidableEq, Repr

/-- Thread identities: the main thread and the workers, numbered by their
position in the vector `threads`. -/
inductive Tid where
  | main
  | worker (i : Nat)
  deriving DecidableEq, Repr

/-- Control points inside `func_1` .. `func_4` (line numbers of `func_1`; the
other three bodies are the same statements). -/
inductive FLine where
  | l109  -- output_lock.lock()
  | l110  -- std::cout << "Function k doing work" << std::endl
  | l112  -- if (gen != nullptr)
  | l114  -- std::cout << string_data->data << std::endl
  | l116  -- output_lock.unlock()
  deriving DecidableEq, Repr

/-- Control points of a worker running `thread_work` (lines 81-98); the
argument `w` is the local variable `w` once it has been assigned. -/
inductive WPc where
  | l82                       -- while (running)
  | l83                       -- queue_lock.lock()
  | l85                       -- if (work_queue.size() > 0)
  | l86                       -- w = work_queue.back()
  | l87 (w : work_unit)       -- work_queue.pop_back()
  | l88 (w : work_unit)       -- queue_lock.unlock()
  | l89 (w : work_unit)       -- w->func(w->g)   (the call)
  | body (w : work_unit) (f : Func) (gen : Option generic) (line : FLine)
  | l90 (w : work_unit)       -- delete w
  | l93                       -- queue_lock.unlock()
  | l94                       -- sleep_for(milliseconds(500))
  | done                      -- thread_work has returned
  | crashed                   -- left thread_work by an exception: in std::terminate
  deriving DecidableEq, Repr

/-- Control points of `main` (lines 165-228). -/
inductive MPc where
  | m169 (i : Nat)   -- for (i < 10) threads.push_back(std::thread(thread_work, i))
  | m176             -- queue_lock.lock()
  | m182 (i : Nat)   -- for (i < 50) ... work_queue.push_back(u)
  | m208             -- queue_lock.unlock()
  | m212             -- std::cout << "Putting main thread to sleep ..."
  | m213             -- sleep_for(seconds(2))
  | m217             -- running = false
  | m221 (i : Nat)   -- for (t : threads) if (t.joinable()) t.join()
  | m226             -- return 0
  | exited
  deriving DecidableEq, Repr

/-- One entry of the call history: worker `worker` invoked `func` with
argument `arg`, for the unit at address `unit`. -/
structure Call where
  worker : Nat
  unit : Nat
  func : Func
  arg : Option generic
  deriving DecidableEq, Repr

/-- The globals of the program (lines 22-35), the control points of the
threads, and the history fields. -/
structure State where
  running : Bool
  threads : List WPc
  queue_lock : Option Tid
  output_lock : Option Tid
  work_queue : List work_unit
  mainPc : MPc
  output : List String
  calls : List Call
  deleted : List Nat
  freed : List Nat
  sleeps : List (Tid × Nat)
  aborted : Bool
  deriving DecidableEq, Repr

/-- What `main` is run with: the number of workers it spawns (10 in the
source) and the jobs it submits, in order (in the source 50 jobs, the
function chosen by `rand()`, the payload `"Hello i"`). -/
structure Config where
  nworkers : Nat
  jobs : List (Func × Option generic)
  deriving Repr

/-! ## The vector operations used on `work_queue` -/

/-- The call `work_queue.size()`. -/
def size (q : List work_unit) : Nat := q.length

/-- The call `work_queue.back()`; undefined on an empty vector. -/
def back (q : List work_unit) : Option work_unit := q.getLast?

/-- The call `work_queue.pop_back()`. -/
def pop_back (q : List work_unit) : List work_unit := q.dropLast

/-- The call `work_queue.push_back(u)`. -/
def push_back (q : List work_unit) (u : work_unit) : List work_unit := q ++ [u]

/-- Lines 85-87 of `thread_work` as one operation: when the queue is not
empty, take `back()` and `pop_back()`. -/
def popOnce (q : List work_unit) : Option (work_unit × List work_unit) :=
  if size q > 0 then
    match back q with
    | some w => some (w, pop_back q)
    | none => none
  else none

/-- Pushing the units of `js` in order. -/
def pushAll (q : List work_unit) (js : List work_unit) : List work_unit :=
  js.foldl push_back q

/-- Up to `n` successive pops; `none` as soon as one finds the queue empty. -/
def popN : Nat → List work_unit → Option (List work_unit × List work_unit)
  | 0, q => some ([], q)
  | n + 1, q =>
    match popOnce q with
    | none => none
    | some (w, q1) =>
      match popN n q1 with
      | none => none
      | some (ws, q2) => some (w :: ws, q2)

/-! ## The job functions -/

/-- The first line each job function prints (lines 110, 122, 133, 143). -/
def header : Func → String
  | .func_1 => "Function 1 doing work"
  | .func_2 => "Function 2 doing work"
  | .func_3 => "Function 3 doing work"
  | .func_4 => "Function 4 doing work"
  | .foreign _ => ""

/-- Whether the function pointer is one of `func_1` .. `func_4`. -/
def isJobFunc : Func → Bool
  | .foreign _ => false
  | _ => true

/-- Everything a job function prints for the argument `gen`. -/
def jobOutput (f : Func) (gen : Option generic) : List String :=
  match gen with
  | some (.hello_string d) => [header f, d]
  | none => [header f]

/-! ## Steps -/

/-- Worker `t` moves to control point `pc`. -/
def setPc (s : State) (t : Nat) (pc : WPc) : State :=
  { s with threads := s.threads.set t pc }

/-- An exception leaves `thread_work` (or the thread faults): this thread
runs no further statement of `thread_work`; it is in `std::terminate`, and
the other threads go on running. -/
def crash (s : State) (t : Nat) : State :=
  setPc s t .crashed

/-- The destructor `~work_unit` (lines 67-69): the payload is released when
the pointer is not null. -/
def destroyed (w : work_unit) : List Nat :=
  match w.g with
  | some _ => [w.addr]
  | none => []

/-- One statement of the body of `func_1` .. `func_4` (lines 108-149), run by
worker `t` for the unit `w` with parameter `gen`. -/
def func_body (s : State) (t : Nat) (w : work_unit) (f : Func)
    (gen : Option generic) : FLine → State
  | .l109 =>
    match s.output_lock with
    | none => { setPc s t (.body w f gen .l110) with output_lock := some (.worker t) }
    | some _ => s
  | .l110 => { setPc s t (.body w f gen .l112) with output := s.output ++ [header f] }
  | .l112 =>
    match gen with
    | some _ => setPc s t (.body w f gen .l114)
    | none => setPc s t (.body w f gen .l116)
  | .l114 =>
    match gen with
    | some (.hello_string d) =>
      { setPc s t (.body w f gen .l116) with output := s.output ++ [d] }
    | none => crash s t
  | .l116 => { setPc s t (.l90 w) with output_lock := none }

/-- One statement of `thread_work` (lines 81-98) run by worker `t`, which is
at control point `pc`.  A worker that has left `thread_work` by an exception
has one more step, on its own thread: the `abort()` at the end of
`std::terminate`, which ends the process. -/
def thread_work (s : State) (t : Nat) : WPc → State
  | .l82 => if s.running then setPc s t .l83 else setPc s t .done
  | .l83 =>
    match s.queue_lock with
    | none => { setPc s t .l85 with queue_lock := some (.worker t) }
    | some _ => s
  | .l85 => if size s.work_queue > 0 then setPc s t .l86 else setPc s t .l93
  | .l86 =>
    match back s.work_queue with
    | some w => setPc s t (.l87 w)
    | none => crash s t
  | .l87 w => { setPc s t (.l88 w) with work_queue := pop_back s.work_queue }
  | .l88 w => { setPc s t (.l89 w) with queue_lock := none }
  | .l89 w =>
    let s1 : State := { s with calls := s.calls ++ [⟨t, w.addr, w.func, w.g⟩] }
    match w.func with
    | .foreign true => crash s1 t
    | .foreign false => setPc s1 t (.l90 w)
    | f => setPc s1 t (.body w f w.g .l109)
  | .body w f gen line => func_body s t w f gen line
  | .l90 w =>
    { setPc s t .l82 with
      deleted := s.deleted ++ [w.addr]
      freed := s.freed ++ destroyed w }
  | .l93 => { setPc s t .l94 with queue_lock := none }
  | .l94 => { setPc s t .l82 with sleeps := s.sleeps ++ [(.worker t, 500)] }
  | .done => s
  | .crashed => { s with aborted := true }

/-- One statement of `main` (lines 165-228). -/
def main (cfg : Config) (s : State) : State :=
  match s.mainPc with
  | .m169 i =>
    if i < cfg.nworkers then
      { s with threads := s.threads ++ [.l82], mainPc := .m169 (i + 1) }
    else { s with mainPc := .m176 }
  | .m176 =>
    match s.queue_lock with
    | none => { s with queue_lock := some .main, mainPc := .m182 0 }
    | some _ => s
  | .m182 i =>
    match cfg.jobs[i]? with
    | some (f, g) =>
      { s with work_queue := push_back s.work_queue ⟨i, f, g⟩, mainPc := .m182 (i + 1) }
    | none => { s with mainPc := .m208 }
  | .m208 => { s with queue_lock := none, mainPc := .m212 }
  | .m212 =>
    { s with
      output := s.output ++ ["Putting main thread to sleep for 2 seconds"]
      mainPc := .m213 }
  | .m213 => { s with sleeps := s.sleeps ++ [(.main, 2000)], mainPc := .m217 }
  | .m217 => { s with running := false, mainPc := .m221 0 }
  | .m221 i =>
    match s.threads[i]? with
    | none => { s with mainPc := .m226 }
    | some .done => { s with mainPc := .m221 (i + 1) }
    | some _ => s
  | .m226 => { s with mainPc := .exited }
  | .exited => s

/-- The next statement of thread `tid`; nothing runs once the process has
been terminated. -/
def step (cfg : Config) (s : State) (tid : Tid) : State :=
  if s.aborted then s
  else
    match tid with
    | .main => main cfg s
    | .worker t =>
      match s.threads[t]? with
      | some pc => thread_work s t pc
      | none => s

/-- Running a schedule from `s`. -/
def exec (cfg : Config) (s : State) (sched : List Tid) : State :=
  sched.foldl (step cfg) s

/-- The state at program start: `running = true` (line 22), empty vectors,
free mutexes, `main` at its first statement. -/
def init : State :=
  { running := true
    threads := []
    queue_lock := none
    output_lock := none
    work_queue := []
    mainPc := .m169 0
    output := []
    calls := []
    deleted := []
    freed := []
    sleeps := []
    aborted := false }

/-- The state reached from program start by a schedule. -/
def run (cfg : Config) (sched : List Tid) : State :=
  exec cfg init sched

/-- The jobs of the source's `main` (lines 182-204): job `i` runs
`func_(rand() % 4 + 1)` on a `hello_string` holding `"Hello i"`; `rand i` is
the value of the `i`-th call of `rand()`. -/
def sourceJobs (rand : Nat → Nat) : List (Func × Option generic) :=
  (List.range 50).map fun i =>
    ((match rand i % 4 + 1 with
      | 1 => Func.func_1
      | 2 => Func.func_2
      | 3 => Func.func_3
      | _ => Func.func_4),
     some (generic.hello_string ("Hello " ++ toString i)))

/-- The configuration of the source: 10 workers, the 50 jobs above. -/
def sourceConfig (rand : Nat → Nat) : Config :=
  { nworkers := 10, jobs := sourceJobs rand }

/-! ## Predicates on control points and states -/

/-- The control points at which a worker is between `queue_lock.lock()` of
line 83 and the `queue_lock.unlock()` of line 88 or 93. -/
def holdsQ : WPc → Bool
  | .l85 => true
  | .l86 => true
  | .l87 _ => true
  | .l88 _ => true
  | .l93 => true
  | _ => false

/-- The control points at which `main` is between line 176 and line 208. -/
def mainHoldsQ : MPc → Bool
  | .m182 _ => true
  | .m208 => true
  | _ => false

/-- The control points of a job function between `output_lock.lock()` and
`output_lock.unlock()`. -/
def holdsOut : WPc → Bool
  | .body _ _ _ .l110 => true
  | .body _ _ _ .l112 => true
  | .body _ _ _ .l114 => true
  | .body _ _ _ .l116 => true
  | _ => false

/-- The worker is running the function of a job: at the call of line 89 or
inside the body of the function. -/
def executing : WPc → Bool
  | .l89 _ => true
  | .body _ _ _ _ => true
  | _ => false

/-- The worker is at the `sleep_for` of line 94. -/
def sleeping : WPc → Bool
  | .l94 => true
  | _ => false

/-- Facts about `queue_lock` that hold in every reachable state. -/
structure LockInv (s : State) : Prop where
  worker : ∀ (t : Nat) (pc : WPc), s.threads[t]? = some pc →
    (holdsQ pc = true ↔ s.queue_lock = some (.worker t))
  main : mainHoldsQ s.mainPc = true ↔ s.queue_lock = some .main
  nonempty : ∀ t : Nat, s.threads[t]? = some WPc.l86 → s.work_queue ≠ []
  last : ∀ (t : Nat) (w : work_unit), s.threads[t]? = some (WPc.l87 w) → back s.work_queue = some w
  owner : ∀ t : Nat, s.queue_lock = some (.worker t) → t < s.threads.length

/-- Facts about `output_lock` and the job functions that hold in every
reachable state. -/
structure OutInv (s : State) : Prop where
  worker : ∀ (t : Nat) (pc : WPc), s.threads[t]? = some pc →
    (holdsOut pc = true ↔ s.output_lock = some (.worker t))
  main : s.output_lock ≠ some .main
  owner : ∀ t : Nat, s.output_lock = some (.worker t) → t < s.threads.length
  arg : ∀ (t : Nat) (w : work_unit) (f : Func) (gen : Option generic) (line : FLine),
    s.threads[t]? = some (WPc.body w f gen line) →
      f = w.func ∧ gen = w.g ∧ isJobFunc f = true
  deref : ∀ (t : Nat) (w : work_unit) (f : Func) (gen : Option generic),
    s.threads[t]? = some (WPc.body w f gen .l114) → gen ≠ none

/-- Whether `main` has not yet executed `running = false` (line 217). -/
def beforeStop : MPc → Bool
  | .m221 _ => false
  | .m226 => false
  | .exited => false
  | _ => true

/-- The number of jobs `main` has pushed onto `work_queue` so far. -/
def submitted (cfg : Config) (s : State) : Nat :=
  match s.mainPc with
  | .m169 _ => 0
  | .m176 => 0
  | .m182 i => i
  | _ => cfg.jobs.length

/-- The unit a worker has popped and not yet called (after `pop_back()` of
line 87, up to the call of line 89). -/
def preAddr : WPc → Option Nat
  | .l88 w => some w.addr
  | .l89 w => some w.addr
  | _ => none

/-- The unit a worker has called and not yet deleted (inside the job
function, or at the `delete w` of line 90). -/
def postAddr : WPc → Option Nat
  | .body w _ _ _ => some w.addr
  | .l90 w => some w.addr
  | _ => none

/-- The number of workers that hold a popped unit they have not called yet. -/
def inflight (s : State) : Nat :=
  s.threads.countP fun pc => (preAddr pc).isSome

/-- The addresses of the units whose function has been called. -/
def executed (s : State) : List Nat := s.calls.map Call.unit

/-- The addresses of the units in the queue. -/
def queued (s : State) : List Nat := s.work_queue.map work_unit.addr

/-- Facts about `main` that hold in every reachable state. -/
structure MainInv (cfg : Config) (s : State) : Prop where
  flag : s.running = true ↔ beforeStop s.mainPc = true
  joined : ∀ i : Nat, s.mainPc = .m221 i → ∀ j : Nat, j < i → s.threads[j]? = some WPc.done
  all_joined : s.mainPc = .m226 ∨ s.mainPc = .exited → ∀ pc ∈ s.threads, pc = WPc.done
  bound : ∀ i : Nat, s.mainPc = .m182 i → i ≤ cfg.jobs.length

/-- The accounting of units that holds in every reachable state: every unit
pushed so far is in exactly one place (the queue, a worker that has popped
it, or the call history); units being run or deleted have been called; a
released payload belongs to a deleted unit. -/
structure JobInv (cfg : Config) (s : State) : Prop where
  counts : ∀ a : Nat,
    (queued s).count a + s.threads.countP (fun pc => decide (preAddr pc = some a))
      + (executed s).count a = if a < submitted cfg s then 1 else 0
  lengths : s.work_queue.length + inflight s + s.calls.length = submitted cfg s
  post : ∀ a : Nat,
    s.threads.countP (fun pc => decide (postAddr pc = some a)) + s.deleted.count a
      ≤ (executed s).count a
  freed : ∀ a : Nat, s.freed.count a ≤ s.deleted.count a

/-- The successive values of `running` along a schedule started in `s`. -/
def flagTrace (cfg : Config) : State → List Tid → List Bool
  | s, [] => [s.running]
  | s, t :: rest => s.running :: flagTrace cfg (step cfg s t) rest

/-! ## Jobs running side by side -/

/-- A step of a job: worker `t` runs its next statement when it is at the
call of line 89 or inside a job function, and otherwise does nothing (a
schedule of such steps interleaves the statements of the jobs only). -/
def jobStep (cfg : Config) (s : State) (t : Nat) : State :=
  match s.threads[t]? with
  | some pc => if executing pc = true then step cfg s (.worker t) else s
  | none => s

/-- Running a schedule of job steps. -/
def execJobs (cfg : Config) (s : State) (sched : List Nat) : State :=
  sched.foldl (jobStep cfg) s

/-- How far a worker at control point `pc` is with the job of unit `w`: the
lines the job has printed so far and its stage (0: `output_lock` not yet
taken, 1: `output_lock` held, 2: the function has returned); `none` when the
worker is not running that job. -/
def jobProgress (w : work_unit) : WPc → Option (List String × Nat)
  | .l89 w1 => if w1 = w then some ([], 0) else none
  | .body w1 f gen line =>
    if w1 = w ∧ f = w.func ∧ gen = w.g then
      match line with
      | .l109 => some ([], 0)
      | .l110 => some ([], 1)
      | .l112 => some ([header f], 1)
      | .l114 =>
        match gen with
        | some _ => some ([header f], 1)
        | none => none
      | .l116 => some (jobOutput f gen, 1)
    else none
  | .l90 w1 => if w1 = w then some (jobOutput w.func w.g, 2) else none
  | _ => none

/-- What holds while workers `a` and `b` run the jobs of `wa` and `wb` from
a state whose output was `o`: the lock is held by the one that is in stage 1,
and the output is `o`, then what the one has printed, then what the other has
printed, the other having started only after the one had returned. -/
def TwoJobs (o : List String) (a b : Nat) (wa wb : work_unit) (s : State) : Prop :=
  ∃ (pa pb : WPc) (Wa Wb : List String) (sa sb : Nat),
    s.threads[a]? = some pa ∧ s.threads[b]? = some pb
      ∧ jobProgress wa pa = some (Wa, sa) ∧ jobProgress wb pb = some (Wb, sb)
      ∧ s.aborted = false
      ∧ (sa = 1 → s.output_lock = some (.worker a))
      ∧ (sb = 1 → s.output_lock = some (.worker b))
      ∧ (sa ≠ 1 → sb ≠ 1 → s.output_lock = none)
      ∧ ((s.output = o ++ Wa ++ Wb ∧ (sb = 0 ∨ sa = 2))
          ∨ (s.output = o ++ Wb ++ Wa ∧ (sa = 0 ∨ sb = 2)))

/-! ## After an exception -/

/-- The control points of `main` after the `queue_lock.unlock()` of line 208:
nothing more is submitted. -/
def afterSubmit : MPc → Bool
  | .m212 => true
  | .m213 => true
  | .m217 => true
  | .m221 _ => true
  | .m226 => true
  | .exited => true
  | _ => false

/-- The calls made by worker `t`. -/
def callsOf (t : Nat) (s : State) : List Call :=
  s.calls.filter fun c => decide (c.worker = t)

/-- The unit at address `a` has been called, no worker is running or about
to delete it, and it has not been deleted. -/
def Leaked (a : Nat) (s : State) : Prop :=
  a ∈ executed s
    ∧ s.threads.countP (fun pc => decide (postAddr pc = some a)) = 0
    ∧ a ∉ s.deleted

/-! ## Concrete configurations and schedules -/

/-- One worker and one job: `func_1` with a null payload. -/
def nullJobConfig : Config := ⟨1, [(.func_1, none)]⟩

/-- The schedule that lets `main` spawn the worker, lock, push the job,
leave the loop and unlock (six statements), and then lets the worker test
`running`, lock, test the size, take `back()`, `pop_back()` and unlock (six
statements): the worker is at the call of line 89. -/
def nullJobSchedule : List Tid :=
  List.replicate 6 Tid.main ++ List.replicate 6 (Tid.worker 0)

/-- One worker and one job whose function raises, with a payload. -/
def raisingJobConfig : Config :=
  ⟨1, [(.foreign true, some (.hello_string "payload"))]⟩

/-- The schedule that lets `main` submit the job (six statements) and the
worker pop it and call its function (seven statements). -/
def raisingJobSchedule : List Tid :=
  List.replicate 6 Tid.main ++ List.replicate 7 (Tid.worker 0)

/-- One worker and two jobs: first `func_1` with the payload `"probe"`, then
a job whose function raises; the worker pops the second first. -/
def probeConfig : Config :=
  ⟨1, [(.func_1, some (.hello_string "probe")), (.foreign true, none)]⟩

/-- The schedule that lets `main` submit both jobs and unlock (seven
statements) and the worker pop the last one and call it (seven statements). -/
def probeSchedule : List Tid :=
  List.replicate 7 Tid.main ++ List.replicate 7 (Tid.worker 0)

/-- One worker and one job; `main` runs up to and including `running = false`
(nine statements) before the worker runs its loop test. -/
def lateWorkerConfig : Config := ⟨1, [(.func_1, some (.hello_string "a"))]⟩

/-- Nine statements of `main`, then one of the worker. -/
def lateWorkerSchedule : List Tid :=
  List.replicate 9 Tid.main ++ [Tid.worker 0]

/-- Two workers and the two jobs of `probeConfig`. -/
def twoWorkersProbeConfig : Config :=
  ⟨2, [(.func_1, some (.hello_string "probe")), (.foreign true, none)]⟩

/-- The schedule that lets `main` spawn both workers and submit both jobs
(eight statements), worker 0 pop the raising job and call it (seven
statements), and then worker 1 pop the probe job, run it and delete it
(thirteen statements). -/
def twoWorkersProbeSchedule : List Tid :=
  List.replicate 8 Tid.main ++ List.replicate 7 (Tid.worker 0)
    ++ List.replicate 13 (Tid.worker 1)

/-- The schedule of `probeSchedule` without its last statement: the worker
is at the call of the raising function. -/
def probeScheduleBeforeCall : List Tid :=
  List.replicate 7 Tid.main ++ List.replicate 6 (Tid.worker 0)

/-- Two workers and two jobs: `func_1` with the payload `"x"`, then `func_2`
with a null payload. -/
def twoJobsConfig : Config :=
  ⟨2, [(.func_1, some (.hello_string "x")), (.func_2, none)]⟩

/-- The schedule that lets `main` spawn both workers and submit both jobs
(eight statements), then worker 0 pop the second job and worker 1 the first
(six statements each): both workers are at the call of line 89. -/
def twoJobsSchedule : List Tid :=
  List.replicate 8 Tid.main ++ List.replicate 6 (Tid.worker 0)
    ++ List.replicate 6 (Tid.worker 1)

/-- An interleaving of the two jobs: both are called, worker 0 takes
`output_lock`, worker 1 tries twice and is blocked, worker 0 prints and
unlocks, then worker 1 locks, prints its two lines and unlocks. -/
def twoJobsInterleaving : List Nat := [0, 1, 0, 1, 1, 0, 0, 0, 1, 1, 1, 1, 1]

/-- One worker and two jobs, neither of which raises. -/
def drainConfig : Config :=
  ⟨1, [(.func_1, some (.hello_string "probe")), (.func_3, none)]⟩

/-- A complete run: `main` submits the jobs and goes up to line 213, the
worker executes both jobs and polls the empty queue, `main` clears `running`
and waits, the worker leaves its loop, `main` joins and returns. -/
def drainSchedule : List Tid :=
  List.replicate 8 Tid.main ++ List.replicate 30 (Tid.worker 0)
    ++ List.replicate 3 Tid.main ++ [Tid.worker 0] ++ List.replicate 3 Tid.main

/-! ## Basic facts about schedules -/

theorem exec_nil (cfg : Config) (s : State) : exec cfg s [] = s := rfl

theorem exec_cons (cfg : Config) (s : State) (t : Tid) (sched : List Tid) :
    exec cfg s (t :: sched) = exec cfg (step cfg s t) sched := rfl

theorem exec_append (cfg : Config) (s : State) (a b : List Tid) :
    exec cfg s (a ++ b) = exec cfg (exec cfg s a) b := by
  simp [exec, List.foldl_append]

theorem exec_snoc (cfg : Config) (s : State) (a : List Tid) (t : Tid) :
    exec cfg s (a ++ [t]) = step cfg (exec cfg s a) t := by
  simp [exec, List.foldl_append]

/-- A property that holds initially and is kept by every step holds in every
state the program reaches. -/
theorem run_induction (cfg : Config) (P : State → Prop) (h0 : P init)
    (hstep : ∀ s t, P s → P (step cfg s t)) (sched : List Tid) :
    P (run cfg sched) := by
  induction sched using List.reverseRecOn with
  | nil => exact h0
  | append_singleton a t ih =>
    unfold run at ih ⊢
    rw [exec_snoc]
    exact hstep _ _ ih

/-- A property kept by every step is kept by every schedule. -/
theorem exec_induction (cfg : Config) (P : State → Prop)
    (hstep : ∀ s t, P s → P (step cfg s t)) (s : State) (h0 : P s)
    (sched : List Tid) : P (exec cfg s sched) := by
  induction sched generalizing s with
  | nil => exact h0
  | cons t rest ih => exact ih _ (hstep _ _ h0)

/-! ## The running flag -/

theorem func_body_running (s : State) (t : Nat) (w : work_unit) (f : Func)
    (gen : Option generic) (line : FLine) :
    (func_body s t w f gen line).running = s.running := by
  cases line <;> simp only [func_body] <;> (try split) <;> simp [setPc, crash]

theorem thread_work_running (s : State) (t : Nat) (pc : WPc) :
    (thread_work s t pc).running = s.running := by
  cases pc <;> simp only [thread_work, func_body_running] <;> (try split) <;>
    simp [setPc, crash]

theorem main_running (cfg : Config) (s : State) :
    (main cfg s).running = s.running ∨ (main cfg s).running = false := by
  unfold main
  split <;> (try split) <;> simp

theorem step_running (cfg : Config) (s : State) (t : Tid) :
    (step cfg s t).running = s.running ∨ (step cfg s t).running = false := by
  unfold step
  split
  · exact Or.inl rfl
  · cases t with
    | main => exact main_running cfg s
    | worker i =>
      simp only
      split
      · exact Or.inl (thread_work_running _ _ _)
      · exact Or.inl rfl

theorem exec_running_false (cfg : Config) (s : State) (sched : List Tid)
    (h : s.running = false) : (exec cfg s sched).running = false := by
  refine exec_induction cfg (fun s => s.running = false) ?_ s h sched
  intro s t hs
  rcases step_running cfg s t with h1 | h1
  · rw [h1]; exact hs
  · exact h1

/-! ## The queue lock -/

theorem lt_of_getElem? {α : Type} {l : List α} {t : Nat} {x : α} (h : l[t]? = some x) :
    t < l.length :=
  (List.getElem?_eq_some_iff.1 h).1

theorem set_self_of_getElem? {α : Type} {l : List α} {t : Nat} {x : α}
    (h : l[t]? = some x) : l.set t x = l := by
  induction l generalizing t with
  | nil => rfl
  | cons a l ih =>
    cases t with
    | zero => simp at h; simp [h]
    | succ n => simp at h; simp [ih h]

theorem getElem?_set_cases {α : Type} (l : List α) (t t1 : Nat) (a x : α)
    (h : (l.set t a)[t1]? = some x) :
    (t1 = t ∧ x = a) ∨ (t1 ≠ t ∧ l[t1]? = some x) := by
  by_cases ht : t = t1
  · subst ht
    rw [List.getElem?_set_self'] at h
    left
    cases hl : l[t]? with
    | none => simp [hl] at h
    | some y => simp [hl] at h; exact ⟨rfl, h.symm⟩
  · rw [List.getElem?_set_ne ht] at h
    exact Or.inr ⟨fun e => ht e.symm, h⟩

theorem getElem?_concat_cases {α : Type} (l : List α) (t : Nat) (a x : α)
    (h : (l ++ [a])[t]? = some x) :
    l[t]? = some x ∨ (t = l.length ∧ x = a) := by
  rcases Nat.lt_or_ge t l.length with hlt | hge
  · rw [List.getElem?_append_left hlt] at h
    exact Or.inl h
  · rw [List.getElem?_append_right hge] at h
    right
    rcases Nat.eq_zero_or_pos (t - l.length) with e | e
    · rw [e] at h
      simp at h
      exact ⟨by omega, h.symm⟩
    · rw [List.getElem?_eq_none (by simp; omega)] at h
      simp at h

/-- Two workers cannot both be between lock and unlock of `queue_lock`. -/
theorem LockInv_exclusive {s : State} (inv : LockInv s) {t t1 : Nat} {pc pc1 : WPc}
    (h : s.threads[t]? = some pc) (h1 : s.threads[t1]? = some pc1)
    (hq : holdsQ pc = true) (hq1 : holdsQ pc1 = true) : t1 = t := by
  have e := (inv.worker t pc h).1 hq
  have e1 := (inv.worker t1 pc1 h1).1 hq1
  rw [e] at e1
  injection e1 with e1
  injection e1 with e1
  exact e1.symm

/-- The effect of a worker statement on `LockInv`, in terms of what the
statement does to the worker's control point, the lock and the queue. -/
theorem LockInv_update {s s1 : State} (inv : LockInv s) {t : Nat} {pc pc1 : WPc}
    (h : s.threads[t]? = some pc)
    (hth : s1.threads = s.threads.set t pc1) (hm : s1.mainPc = s.mainPc)
    (c1 : holdsQ pc1 = true ↔ s1.queue_lock = some (.worker t))
    (c2 : ∀ o, o ≠ Tid.worker t → (s.queue_lock = some o ↔ s1.queue_lock = some o))
    (c3 : s1.work_queue = s.work_queue ∨ holdsQ pc = true)
    (c4 : pc1 = .l86 → s1.work_queue ≠ [])
    (c5 : ∀ w, pc1 = .l87 w → back s1.work_queue = some w) : LockInv s1 := by
  constructor
  · intro t1 pc2 h1
    rw [hth] at h1
    rcases getElem?_set_cases _ _ _ _ _ h1 with ⟨rfl, rfl⟩ | ⟨hne, h1⟩
    · exact c1
    · rw [inv.worker t1 pc2 h1]
      exact c2 (.worker t1) (by simp [hne])
  · rw [hm, inv.main]
    exact c2 .main (by simp)
  · intro t1 h1
    rw [hth] at h1
    rcases getElem?_set_cases _ _ _ _ _ h1 with ⟨rfl, e⟩ | ⟨hne, h1⟩
    · exact c4 e.symm
    · rcases c3 with e | hq
      · rw [e]; exact inv.nonempty t1 h1
      · exact absurd (LockInv_exclusive inv h h1 hq rfl) hne
  · intro t1 w h1
    rw [hth] at h1
    rcases getElem?_set_cases _ _ _ _ _ h1 with ⟨rfl, e⟩ | ⟨hne, h1⟩
    · exact c5 w e.symm
    · rcases c3 with e | hq
      · rw [e]; exact inv.last t1 w h1
      · exact absurd (LockInv_exclusive inv h h1 hq rfl) hne
  · intro t1 h1
    rw [hth, List.length_set]
    by_cases e : t1 = t
    · subst e
      exact (List.getElem?_eq_some_iff.1 h).1
    · exact inv.owner t1 ((c2 (.worker t1) (by simp [e])).2 h1)

theorem LockInv_func_body {s : State} (inv : LockInv s) {t : Nat} {w : work_unit}
    {f : Func} {gen : Option generic} {line : FLine}
    (h : s.threads[t]? = some (.body w f gen line)) :
    LockInv (func_body s t w f gen line) := by
  have hw := inv.worker t _ h
  cases line <;> simp only [JobSystem.func_body] <;> (try split) <;>
    first
    | exact inv
    | exact LockInv_update inv h rfl rfl (by simpa [holdsQ, setPc, crash] using hw)
        (by simp [setPc, crash]) (Or.inl rfl) (by simp) (by simp)

theorem LockInv_thread_work {s : State} (inv : LockInv s) {t : Nat} {pc : WPc}
    (h : s.threads[t]? = some pc) : LockInv (thread_work s t pc) := by
  have hw := inv.worker t pc h
  cases pc <;> simp only [JobSystem.thread_work] <;> (try split) <;>
    first
    | exact inv
    | exact ⟨inv.worker, inv.main, inv.nonempty, inv.last, inv.owner⟩
    | exact LockInv_func_body inv h
    | exact absurd (by simpa [back] using ‹back s.work_queue = none›) (inv.nonempty t h)
    | exact LockInv_update inv h rfl rfl (by simp_all [holdsQ, setPc, crash])
        (by intro o ho; have ho2 := Ne.symm ho; simp_all [holdsQ, setPc, crash])
        (by first | exact Or.inl rfl | exact Or.inr rfl)
        (by simp_all [setPc, size, List.length_pos]) (by simp_all [setPc])

/-- The effect of a statement of `main` that leaves the pool as it is. -/
theorem LockInv_updateMain {s s1 : State} (inv : LockInv s)
    (hth : s1.threads = s.threads)
    (c1 : mainHoldsQ s1.mainPc = true ↔ s1.queue_lock = some .main)
    (c2 : ∀ t, s.queue_lock = some (.worker t) ↔ s1.queue_lock = some (.worker t))
    (c3 : s1.work_queue = s.work_queue ∨ s.queue_lock = some .main) : LockInv s1 := by
  have excl : s.queue_lock = some .main → ∀ (t : Nat) (pc : WPc),
      s.threads[t]? = some pc → holdsQ pc = true → False := by
    intro hq t pc h hp
    have := (inv.worker t pc h).1 hp
    rw [hq] at this
    simp at this
  constructor
  · intro t pc h
    rw [hth] at h
    rw [inv.worker t pc h]
    exact c2 t
  · exact c1
  · intro t h
    rw [hth] at h
    rcases c3 with e | hq
    · rw [e]; exact inv.nonempty t h
    · exact (excl hq t _ h rfl).elim
  · intro t w h
    rw [hth] at h
    rcases c3 with e | hq
    · rw [e]; exact inv.last t w h
    · exact (excl hq t _ h rfl).elim
  · intro t h
    rw [hth]
    exact inv.owner t ((c2 t).2 h)

/-- Spawning a worker (line 170) keeps `LockInv`. -/
theorem LockInv_spawn {s s1 : State} (inv : LockInv s)
    (hth : s1.threads = s.threads ++ [.l82])
    (hm : mainHoldsQ s1.mainPc = mainHoldsQ s.mainPc)
    (hl : s1.queue_lock = s.queue_lock) (hq : s1.work_queue = s.work_queue) :
    LockInv s1 := by
  have key := fun (t : Nat) (pc : WPc) => getElem?_concat_cases s.threads t WPc.l82 pc
  constructor
  · intro t pc h
    rw [hth] at h
    rw [hl]
    rcases key t pc h with h | ⟨rfl, rfl⟩
    · exact inv.worker t pc h
    · constructor
      · intro e; simp [holdsQ] at e
      · intro e; exact absurd (inv.owner _ e) (lt_irrefl _)
  · rw [hm, hl]; exact inv.main
  · intro t h
    rw [hth] at h
    rw [hq]
    rcases key t _ h with h | ⟨_, e⟩
    · exact inv.nonempty t h
    · simp at e
  · intro t w h
    rw [hth] at h
    rw [hq]
    rcases key t _ h with h | ⟨_, e⟩
    · exact inv.last t w h
    · simp at e
  · intro t h
    rw [hl] at h
    rw [hth, List.length_append]
    exact Nat.lt_add_right _ (inv.owner t h)

theorem LockInv_main (cfg : Config) {s : State} (inv : LockInv s) :
    LockInv (main cfg s) := by
  have hm := inv.main
  unfold JobSystem.main
  split <;> (try split) <;> rename_i hpc <;>
    first
    | exact inv
    | exact LockInv_spawn inv rfl (by simp_all [mainHoldsQ]) rfl rfl
    | exact LockInv_updateMain inv rfl (by simp_all [mainHoldsQ]) (by simp_all [mainHoldsQ])
        (by first | exact Or.inl rfl | (right; simp_all [mainHoldsQ]))

theorem LockInv_init : LockInv init := by
  constructor <;> simp [JobSystem.init, mainHoldsQ]

theorem LockInv_step (cfg : Config) {s : State} (inv : LockInv s) (t : Tid) :
    LockInv (step cfg s t) := by
  unfold JobSystem.step
  split
  · exact inv
  · cases t with
    | main => exact LockInv_main cfg inv
    | worker i =>
      simp only
      split
      · rename_i pc h; exact LockInv_thread_work inv h
      · exact inv

theorem LockInv_run (cfg : Config) (sched : List Tid) : LockInv (run cfg sched) :=
  run_induction cfg LockInv LockInv_init (fun _ t h => LockInv_step cfg h t) sched

/-! ## The output lock -/

/-- The effect of a worker statement on `OutInv`. -/
theorem OutInv_update {s s1 : State} (inv : OutInv s) {t : Nat} {pc pc1 : WPc}
    (h : s.threads[t]? = some pc)
    (hth : s1.threads = s.threads.set t pc1)
    (c1 : holdsOut pc1 = true ↔ s1.output_lock = some (.worker t))
    (c2 : ∀ o, o ≠ Tid.worker t → (s.output_lock = some o ↔ s1.output_lock = some o))
    (c3 : ∀ w f gen line, pc1 = .body w f gen line →
      f = w.func ∧ gen = w.g ∧ isJobFunc f = true)
    (c4 : ∀ w f gen, pc1 = .body w f gen .l114 → gen ≠ none) : OutInv s1 := by
  constructor
  · intro t1 pc2 h1
    rw [hth] at h1
    rcases getElem?_set_cases _ _ _ _ _ h1 with ⟨rfl, rfl⟩ | ⟨hne, h1⟩
    · exact c1
    · rw [inv.worker t1 pc2 h1]
      exact c2 (.worker t1) (by simp [hne])
  · intro e
    exact inv.main ((c2 .main (by simp)).2 e)
  · intro t1 h1
    rw [hth, List.length_set]
    by_cases e : t1 = t
    · subst e
      exact (List.getElem?_eq_some_iff.1 h).1
    · exact inv.owner t1 ((c2 (.worker t1) (by simp [e])).2 h1)
  · intro t1 w f gen line h1
    rw [hth] at h1
    rcases getElem?_set_cases _ _ _ _ _ h1 with ⟨rfl, e⟩ | ⟨hne, h1⟩
    · exact c3 w f gen line e.symm
    · exact inv.arg t1 w f gen line h1
  · intro t1 w f gen h1
    rw [hth] at h1
    rcases getElem?_set_cases _ _ _ _ _ h1 with ⟨rfl, e⟩ | ⟨hne, h1⟩
    · exact c4 w f gen e.symm
    · exact inv.deref t1 w f gen h1

theorem isJobFunc_of_ne {f : Func} (h1 : ¬f = Func.foreign true)
    (h2 : ¬f = Func.foreign false) : isJobFunc f = true := by
  cases f with
  | foreign b => cases b <;> simp_all
  | _ => rfl

theorem OutInv_func_body {s : State} (inv : OutInv s) {t : Nat} {w : work_unit}
    {f : Func} {gen : Option generic} {line : FLine}
    (h : s.threads[t]? = some (.body w f gen line)) :
    OutInv (func_body s t w f gen line) := by
  have hw := inv.worker t _ h
  have ha := inv.arg t _ _ _ _ h
  cases line <;> simp only [JobSystem.func_body] <;> (try split) <;>
    first
    | exact inv
    | exact absurd rfl (inv.deref t _ _ _ h)
    | exact OutInv_update inv h rfl (by simp_all [holdsOut, setPc, crash])
        (by intro o ho; have ho2 := Ne.symm ho; simp_all [holdsOut, setPc, crash])
        (by intro w1 f1 g1 l1 e; cases e <;> exact ha)
        (by intro w1 f1 g1 e; cases e <;> simp)

theorem OutInv_thread_work {s : State} (inv : OutInv s) {t : Nat} {pc : WPc}
    (h : s.threads[t]? = some pc) : OutInv (thread_work s t pc) := by
  have hw := inv.worker t pc h
  cases pc <;> simp only [JobSystem.thread_work] <;> (try split) <;>
    first
    | exact inv
    | exact ⟨inv.worker, inv.main, inv.owner, inv.arg, inv.deref⟩
    | exact OutInv_func_body inv h
    | exact OutInv_update inv h rfl (by simp_all [holdsOut, setPc, crash])
        (by intro o ho; have ho2 := Ne.symm ho; simp_all [holdsOut, setPc, crash])
        (by intro w1 f1 g1 l1 e; cases e <;> exact ⟨rfl, rfl, isJobFunc_of_ne ‹_› ‹_›⟩)
        (by intro w1 f1 g1 e; cases e)

/-- The effect of a statement of `main` that leaves the pool as it is. -/
theorem OutInv_updateMain {s s1 : State} (inv : OutInv s)
    (hth : s1.threads = s.threads) (hl : s1.output_lock = s.output_lock) :
    OutInv s1 := by
  constructor
  · intro t pc h; rw [hth] at h; rw [hl]; exact inv.worker t pc h
  · rw [hl]; exact inv.main
  · intro t h; rw [hl] at h; rw [hth]; exact inv.owner t h
  · intro t w f gen line h; rw [hth] at h; exact inv.arg t w f gen line h
  · intro t w f gen h; rw [hth] at h; exact inv.deref t w f gen h

/-- Spawning a worker (line 170) keeps `OutInv`. -/
theorem OutInv_spawn {s s1 : State} (inv : OutInv s)
    (hth : s1.threads = s.threads ++ [.l82]) (hl : s1.output_lock = s.output_lock) :
    OutInv s1 := by
  have key := fun (t : Nat) (pc : WPc) => getElem?_concat_cases s.threads t WPc.l82 pc
  constructor
  · intro t pc h
    rw [hth] at h
    rw [hl]
    rcases key t pc h with h | ⟨rfl, rfl⟩
    · exact inv.worker t pc h
    · constructor
      · intro e; simp [holdsOut] at e
      · intro e; exact absurd (inv.owner _ e) (lt_irrefl _)
  · rw [hl]; exact inv.main
  · intro t h
    rw [hl] at h
    rw [hth, List.length_append]
    exact Nat.lt_add_right _ (inv.owner t h)
  · intro t w f gen line h
    rw [hth] at h
    rcases key t _ h with h | ⟨_, e⟩
    · exact inv.arg t w f gen line h
    · simp at e
  · intro t w f gen h
    rw [hth] at h
    rcases key t _ h with h | ⟨_, e⟩
    · exact inv.deref t w f gen h
    · simp at e

theorem OutInv_main (cfg : Config) {s : State} (inv : OutInv s) :
    OutInv (main cfg s) := by
  unfold JobSystem.main
  split <;> (try split) <;>
    first
    | exact inv
    | exact OutInv_spawn inv rfl rfl
    | exact OutInv_updateMain inv rfl rfl

theorem OutInv_init : OutInv init := by
  constructor <;> simp [JobSystem.init]

theorem OutInv_step (cfg : Config) {s : State} (inv : OutInv s) (t : Tid) :
    OutInv (step cfg s t) := by
  unfold JobSystem.step
  split
  · exact inv
  · cases t with
    | main => exact OutInv_main cfg inv
    | worker i =>
      simp only
      split
      · rename_i pc h; exact OutInv_thread_work inv h
      · exact inv

theorem OutInv_run (cfg : Config) (sched : List Tid) : OutInv (run cfg sched) :=
  run_induction cfg OutInv OutInv_init (fun _ t h => OutInv_step cfg h t) sched

/-! ## Facts about `main` -/

theorem func_body_mainPc (s : State) (t : Nat) (w : work_unit) (f : Func)
    (gen : Option generic) (line : FLine) :
    (func_body s t w f gen line).mainPc = s.mainPc := by
  cases line <;> simp only [func_body] <;> (try split) <;> simp [setPc, crash]

theorem thread_work_mainPc (s : State) (t : Nat) (pc : WPc) :
    (thread_work s t pc).mainPc = s.mainPc := by
  cases pc <;> simp only [thread_work, func_body_mainPc] <;> (try split) <;>
    simp [setPc, crash]

/-- A worker statement either changes nothing (the thread has returned or
is blocked) or leaves the worker, which had not returned, at some control
point. -/
theorem thread_work_threads (s : State) (t : Nat) (pc : WPc)
    (h : s.threads[t]? = some pc) :
    thread_work s t pc = s ∨
      (pc ≠ .done ∧ ∃ pc1, (thread_work s t pc).threads = s.threads.set t pc1) := by
  cases pc with
  | body w f gen line =>
    cases line <;> simp only [thread_work, func_body] <;> (try split) <;>
      first
      | exact Or.inl rfl
      | exact Or.inr ⟨by simp, _, rfl⟩
  | done => exact Or.inl rfl
  | crashed => exact Or.inr ⟨by simp, .crashed, (set_self_of_getElem? h).symm⟩
  | _ =>
    simp only [thread_work]
    (try split) <;>
      first
      | exact Or.inl rfl
      | exact Or.inr ⟨by simp, _, rfl⟩

theorem MainInv_thread_work {cfg : Config} {s : State} (inv : MainInv cfg s) {t : Nat}
    {pc : WPc} (h : s.threads[t]? = some pc) : MainInv cfg (thread_work s t pc) := by
  rcases thread_work_threads s t pc h with e | ⟨hne, pc1, hth⟩
  · rw [e]; exact inv
  · have hmem : pc ∈ s.threads := List.getElem?_mem h
    constructor
    · rw [thread_work_running, thread_work_mainPc]; exact inv.flag
    · intro i hi j hj
      rw [thread_work_mainPc] at hi
      have hd := inv.joined i hi j hj
      rw [hth]
      by_cases e : t = j
      · subst e
        rw [h] at hd
        exact absurd (Option.some.inj hd) hne
      · rw [List.getElem?_set_ne e]; exact hd
    · intro hm
      rw [thread_work_mainPc] at hm
      exact absurd (inv.all_joined hm pc hmem) hne
    · intro i hi
      rw [thread_work_mainPc] at hi
      exact inv.bound i hi

theorem MainInv_main {cfg : Config} {s : State} (inv : MainInv cfg s) :
    MainInv cfg (main cfg s) := by
  have hf := inv.flag
  unfold JobSystem.main
  split <;> (try split) <;> rename_i hpc <;>
    first
    | exact inv
    | ((constructor <;> simp_all [beforeStop]); done)
    | skip
  · -- line 202: one more unit pushed
    rename_i i heq _ f g
    have hb := inv.bound i heq
    have hlt := (List.getElem?_eq_some_iff.1 hpc).1
    constructor
    · simp_all [beforeStop]
    · intro j hj; simp at hj
    · intro hj; simp at hj
    · intro j hj
      simp at hj
      omega
  · -- line 221: every thread has been joined
    rename_i i heq _
    have hj := inv.joined i heq
    have hlen : s.threads.length ≤ i := by
      rcases Nat.lt_or_ge i s.threads.length with hlt | hge
      · rw [List.getElem?_eq_getElem hlt] at hpc; simp at hpc
      · exact hge
    constructor
    · simp_all [beforeStop]
    · intro j hj; simp at hj
    · intro _ pc hmem
      obtain ⟨n, hn⟩ := List.mem_iff_getElem?.1 hmem
      have hnlt := (List.getElem?_eq_some_iff.1 hn).1
      have := hj n (by simp only at hnlt; omega)
      simp only at hn
      rw [hn] at this
      exact Option.some.inj this
    · intro j hj; simp at hj
  · -- line 223: thread `i` has been joined
    rename_i i heq _
    have hj := inv.joined i heq
    constructor
    · simp_all [beforeStop]
    · intro k hk j hjk
      simp at hk
      subst hk
      rcases Nat.lt_or_ge j i with hlt | hge
      · exact hj j hlt
      · have : j = i := by omega
        subst this
        exact hpc
    · intro hj; simp at hj
    · intro j hj; simp at hj
  · -- line 226
    have ha := inv.all_joined (Or.inl hpc)
    constructor
    · simp_all [beforeStop]
    · intro j hj; simp at hj
    · intro _; exact ha
    · intro j hj; simp at hj

theorem MainInv_init (cfg : Config) : MainInv cfg init := by
  constructor <;> simp [JobSystem.init, beforeStop]

theorem MainInv_step {cfg : Config} {s : State} (inv : MainInv cfg s) (t : Tid) :
    MainInv cfg (step cfg s t) := by
  unfold JobSystem.step
  split
  · exact inv
  · cases t with
    | main => exact MainInv_main inv
    | worker i =>
      simp only
      split
      · rename_i pc h; exact MainInv_thread_work inv h
      · exact inv

theorem MainInv_run (cfg : Config) (sched : List Tid) : MainInv cfg (run cfg sched) :=
  run_induction cfg (MainInv cfg) (MainInv_init cfg) (fun _ t h => MainInv_step h t) sched

/-! ## The accounting of work units -/

theorem countP_set_add {α : Type} (p : α → Bool) (l : List α) (t : Nat) (x y : α)
    (h : l[t]? = some x) :
    (l.set t y).countP p + (if p x = true then 1 else 0)
      = l.countP p + (if p y = true then 1 else 0) := by
  induction l generalizing t with
  | nil => simp at h
  | cons a l ih =>
    cases t with
    | zero =>
      simp at h
      subst h
      simp only [List.set_cons_zero, List.countP_cons]
      omega
    | succ n =>
      simp at h
      have := ih n h
      simp only [List.set_cons_succ, List.countP_cons]
      omega

theorem submitted_congr (cfg : Config) {s s1 : State} (hm : s1.mainPc = s.mainPc) :
    submitted cfg s1 = submitted cfg s := by
  simp [submitted, hm]

/-- The effect of a worker statement on `JobInv`, in terms of what the
statement does to the queue, the worker's unit and the histories. -/
theorem JobInv_update {cfg : Config} {s s1 : State} (inv : JobInv cfg s) {t : Nat}
    {pc pc1 : WPc} (h : s.threads[t]? = some pc)
    (hth : s1.threads = s.threads.set t pc1) (hm : s1.mainPc = s.mainPc)
    (d1 : ∀ a : Nat,
      (queued s1).count a + (if preAddr pc1 = some a then 1 else 0) + (executed s1).count a
        = (queued s).count a + (if preAddr pc = some a then 1 else 0)
          + (executed s).count a)
    (d2 : s1.work_queue.length + (if (preAddr pc1).isSome = true then 1 else 0)
        + s1.calls.length
        = s.work_queue.length + (if (preAddr pc).isSome = true then 1 else 0)
          + s.calls.length)
    (d3 : ∀ a : Nat,
      (if postAddr pc1 = some a then 1 else 0) + s1.deleted.count a + (executed s).count a
        ≤ (if postAddr pc = some a then 1 else 0) + s.deleted.count a
          + (executed s1).count a)
    (d4 : ∀ a : Nat, s1.freed.count a + s.deleted.count a
        ≤ s.freed.count a + s1.deleted.count a) : JobInv cfg s1 := by
  constructor
  · intro a
    have e := countP_set_add (fun pc => decide (preAddr pc = some a)) s.threads t pc pc1 h
    simp only [decide_eq_true_eq] at e
    have := inv.counts a
    have := d1 a
    rw [submitted_congr cfg hm, hth]
    omega
  · have e := countP_set_add (fun pc => (preAddr pc).isSome) s.threads t pc pc1 h
    beta_reduce at e
    have hl := inv.lengths
    have := d2
    rw [submitted_congr cfg hm]
    unfold inflight at hl ⊢
    rw [hth]
    omega
  · intro a
    have e := countP_set_add (fun pc => decide (postAddr pc = some a)) s.threads t pc pc1 h
    simp only [decide_eq_true_eq] at e
    have := inv.post a
    have := d3 a
    rw [hth]
    omega
  · intro a
    have := inv.freed a
    have := d4 a
    omega

theorem count_queued_pop (q : List work_unit) (w : work_unit) (h : back q = some w)
    (a : Nat) :
    ((pop_back q).map work_unit.addr).count a + (if some w.addr = some a then 1 else 0)
      = (q.map work_unit.addr).count a := by
  have e : q = pop_back q ++ [w] := by
    unfold pop_back
    unfold back at h
    exact (List.dropLast_append_getLast? w h).symm
  conv_rhs => rw [e]
  simp only [List.map_append, List.count_append, List.map_cons, List.map_nil,
    List.count_singleton, Option.some.injEq, beq_iff_eq]

theorem length_pop (q : List work_unit) (w : work_unit) (h : back q = some w) :
    (pop_back q).length + 1 = q.length := by
  have e : q = pop_back q ++ [w] := by
    unfold pop_back
    unfold back at h
    exact (List.dropLast_append_getLast? w h).symm
  conv_rhs => rw [e]
  simp

theorem JobInv_func_body {cfg : Config} {s : State} (inv : JobInv cfg s) {t : Nat}
    {w : work_unit} {f : Func} {gen : Option generic} {line : FLine}
    (h : s.threads[t]? = some (.body w f gen line)) :
    JobInv cfg (func_body s t w f gen line) := by
  cases line <;> simp only [JobSystem.func_body] <;> (try split) <;>
    first
    | exact inv
    | exact JobInv_update inv h rfl rfl (by intro a; simp [queued, executed, setPc, crash, preAddr])
        (by simp [setPc, crash, preAddr])
        (by intro a; simp [executed, setPc, crash, postAddr]) (by simp [setPc, crash])

theorem count_destroyed_le (w : work_unit) (a : Nat) :
    (destroyed w).count a ≤ [w.addr].count a := by
  unfold destroyed
  split <;> simp

theorem JobInv_thread_work {cfg : Config} {s : State} (inv : JobInv cfg s)
    (linv : LockInv s) {t : Nat} {pc : WPc} (h : s.threads[t]? = some pc) :
    JobInv cfg (thread_work s t pc) := by
  cases pc with
  | l87 w =>
    have hb := linv.last t w h
    simp only [JobSystem.thread_work]
    exact JobInv_update inv h rfl rfl
      (by intro a
          have := count_queued_pop s.work_queue w hb a
          simp only [queued, executed, setPc, preAddr]
          simp only [reduceCtorEq, if_false]
          omega)
      (by have := length_pop s.work_queue w hb
          simp [setPc, preAddr]
          omega)
      (by intro a; simp [executed, setPc, postAddr]) (by simp [setPc])
  | l90 w =>
    simp only [JobSystem.thread_work]
    exact JobInv_update inv h rfl rfl (by intro a; simp [queued, executed, setPc, preAddr])
      (by simp [setPc, preAddr])
      (by intro a
          simp [executed, setPc, postAddr, List.count_singleton']
          split_ifs <;> omega)
      (by intro a
          have := count_destroyed_le w a
          simp [setPc]
          omega)
  | _ =>
    simp only [JobSystem.thread_work]
    (try split) <;>
    first
    | exact inv
    | exact ⟨inv.counts, inv.lengths, inv.post, inv.freed⟩
    | exact JobInv_func_body inv h
    | exact JobInv_update inv h rfl rfl
        (by intro a
            simp [queued, executed, setPc, crash, preAddr, List.count_singleton']
            try (split_ifs <;> omega))
        (by simp [setPc, crash, preAddr]
            try omega)
        (by intro a
            simp [executed, setPc, crash, postAddr, List.count_singleton']
            try (split_ifs <;> omega))
        (by simp [setPc, crash])

/-- The effect of a statement of `main` on `JobInv`. -/
theorem JobInv_updateMain {cfg : Config} {s s1 : State} (inv : JobInv cfg s)
    (hth : s1.threads = s.threads ∨ s1.threads = s.threads ++ [.l82])
    (hc : s1.calls = s.calls) (hd : s1.deleted = s.deleted) (hf : s1.freed = s.freed)
    (d1 : ∀ a : Nat, (queued s1).count a + (if a < submitted cfg s then 1 else 0)
      = (queued s).count a + (if a < submitted cfg s1 then 1 else 0))
    (d2 : s1.work_queue.length + submitted cfg s = s.work_queue.length + submitted cfg s1) :
    JobInv cfg s1 := by
  have hcount : ∀ p : WPc → Bool, p .l82 = false →
      s1.threads.countP p = s.threads.countP p := by
    intro p hp
    rcases hth with e | e
    · rw [e]
    · rw [e, List.countP_append]; simp [hp]
  constructor
  · intro a
    have := inv.counts a
    have := d1 a
    rw [hcount _ (by simp [preAddr])]
    simp only [executed, hc] at *
    omega
  · have := inv.lengths
    unfold inflight at *
    rw [hcount _ (by simp [preAddr]), hc]
    omega
  · intro a
    have := inv.post a
    rw [hcount _ (by simp [postAddr]), hd]
    simp only [executed, hc] at *
    exact this
  · intro a
    rw [hf, hd]
    exact inv.freed a

theorem JobInv_main {cfg : Config} {s : State} (inv : JobInv cfg s)
    (minv : MainInv cfg s) : JobInv cfg (main cfg s) := by
  unfold JobSystem.main
  split <;> (try split) <;> rename_i hpc <;>
    first
    | exact inv
    | (refine JobInv_updateMain inv (Or.inl rfl) rfl rfl rfl ?_ ?_
       · intro a; simp_all [queued, submitted]
       · simp_all [submitted])
    | (refine JobInv_updateMain inv (Or.inr rfl) rfl rfl rfl ?_ ?_
       · intro a; simp_all [queued, submitted]
       · simp_all [submitted])
    | skip
  · -- line 202: one more unit pushed
    rename_i i heq _ f g
    exact JobInv_updateMain inv (Or.inl rfl) rfl rfl rfl
      (by intro a
          simp only [queued, submitted, heq, push_back, List.map_append, List.count_append,
            List.map_cons, List.map_nil, List.count_singleton']
          split_ifs <;> omega)
      (by simp [submitted, heq, push_back]; omega)
  · -- line 182: the loop ends
    rename_i i heq _
    have hb := minv.bound i heq
    have hlen : cfg.jobs.length ≤ i := by
      rcases Nat.lt_or_ge i cfg.jobs.length with hlt | hge
      · rw [List.getElem?_eq_getElem hlt] at hpc; simp at hpc
      · exact hge
    have e : i = cfg.jobs.length := by omega
    exact JobInv_updateMain inv (Or.inl rfl) rfl rfl rfl
      (by intro a; simp [queued, submitted, heq, e])
      (by simp [submitted, heq, e])

theorem JobInv_init (cfg : Config) : JobInv cfg init := by
  constructor <;> simp [JobSystem.init, queued, executed, submitted, inflight]

theorem JobInv_step {cfg : Config} {s : State} (inv : JobInv cfg s) (linv : LockInv s)
    (minv : MainInv cfg s) (t : Tid) : JobInv cfg (step cfg s t) := by
  unfold JobSystem.step
  split
  · exact inv
  · cases t with
    | main => exact JobInv_main inv minv
    | worker i =>
      simp only
      split
      · rename_i pc h; exact JobInv_thread_work inv linv h
      · exact inv

/-- All the invariants together. -/
theorem invariants_run (cfg : Config) (sched : List Tid) :
    LockInv (run cfg sched) ∧ OutInv (run cfg sched) ∧ MainInv cfg (run cfg sched)
      ∧ JobInv cfg (run cfg sched) := by
  refine run_induction cfg
    (fun s => LockInv s ∧ OutInv s ∧ MainInv cfg s ∧ JobInv cfg s)
    ⟨LockInv_init, OutInv_init, MainInv_init cfg, JobInv_init cfg⟩ ?_ sched
  intro s t ⟨h1, h2, h3, h4⟩
  exact ⟨LockInv_step cfg h1 t, OutInv_step cfg h2 t, MainInv_step h3 t, JobInv_step h4 h1 h3 t⟩

theorem JobInv_run (cfg : Config) (sched : List Tid) : JobInv cfg (run cfg sched) :=
  (invariants_run cfg sched).2.2.2

/-! ## Single steps -/

theorem step_worker (cfg : Config) {s : State} {t : Nat} {pc : WPc}
    (hna : s.aborted = false) (hpc : s.threads[t]? = some pc) :
    step cfg s (.worker t) = thread_work s t pc := by
  simp [step, hna, hpc]

theorem step_aborted (cfg : Config) {s : State} (h : s.aborted = true) (t : Tid) :
    step cfg s t = s := by
  simp [step, h]

theorem exec_aborted (cfg : Config) {s : State} (h : s.aborted = true) (sched : List Tid) :
    exec cfg s sched = s := by
  induction sched with
  | nil => rfl
  | cons t rest ih => rw [exec_cons, step_aborted cfg h, ih]

/-! ## C1: the queue is a stack -/

theorem pushAll_eq (q js : List work_unit) : pushAll q js = q ++ js := by
  unfold pushAll
  induction js generalizing q with
  | nil => simp
  | cons j js ih => simp [List.foldl_cons, ih, push_back]

theorem popOnce_concat (q : List work_unit) (w : work_unit) :
    popOnce (q ++ [w]) = some (w, q) := by
  simp [popOnce, size, back, pop_back]

theorem popN_concat (q js : List work_unit) :
    popN js.length (q ++ js) = some (js.reverse, q) := by
  induction js using List.reverseRecOn with
  | nil => simp [popN]
  | append_singleton js j ih =>
    rw [← List.append_assoc, List.length_append, List.length_singleton]
    simp only [popN, popOnce_concat, ih, List.reverse_append, List.reverse_cons,
      List.reverse_nil, List.nil_append, List.singleton_append]

/-- C1: the work queue is LIFO.  Pushing the units of `js` in order with
`push_back` onto any queue `q` and then popping `|js|` times the way
`thread_work` does (`back()` then `pop_back()`, lines 85-87) succeeds every
time, returns the units in the reverse order of `js` and leaves the queue
equal to `q`; after pushing `J1, J2, J3` one pop yields `J3`; and the three
statements of lines 85-87, run by a worker, are this pop. -/
theorem C1_work_queue_is_lifo (q js : List work_unit) :
    popN js.length (pushAll q js) = some (js.reverse, q)
      ∧ (∀ J1 J2 J3 : work_unit,
          popOnce (pushAll q [J1, J2, J3]) = some (J3, pushAll q [J1, J2]))
      ∧ (∀ (cfg : Config) (s : State) (t : Nat) (w : work_unit) (q1 : List work_unit),
          s.aborted = false → s.threads[t]? = some WPc.l85 →
          popOnce s.work_queue = some (w, q1) →
          exec cfg s (List.replicate 3 (.worker t))
            = { s with threads := s.threads.set t (.l88 w), work_queue := q1 }) := by
  refine ⟨?_, ?_, ?_⟩
  · rw [pushAll_eq]; exact popN_concat q js
  · intro J1 J2 J3
    rw [pushAll_eq, pushAll_eq]
    have : q ++ [J1, J2, J3] = (q ++ [J1, J2]) ++ [J3] := by simp
    rw [this, popOnce_concat]
  · intro cfg s t w q1 hna hpc hpop
    have hlt := lt_of_getElem? hpc
    unfold popOnce at hpop
    split at hpop
    · rename_i hsz
      split at hpop
      · rename_i w1 hb
        simp only [Option.some.injEq, Prod.mk.injEq] at hpop
        obtain ⟨rfl, hq2⟩ := hpop
        simp [exec, List.replicate, step, thread_work, setPc, hna, hpc, hlt, hsz, hb, hq2]
      · simp at hpop
    · simp at hpop

/-! ## C8: the running flag -/

theorem flagTrace_false (cfg : Config) (sched : List Tid) (s : State)
    (h : s.running = false) :
    flagTrace cfg s sched = List.replicate (sched.length + 1) false := by
  induction sched generalizing s with
  | nil => simp [flagTrace, h, List.replicate]
  | cons t rest ih =>
    have h1 : (step cfg s t).running = false := by
      rcases step_running cfg s t with e | e
      · rw [e]; exact h
      · exact e
    simp only [flagTrace, ih _ h1, h, List.length_cons]
    rfl

theorem flagTrace_shape (cfg : Config) (sched : List Tid) (s : State) :
    ∃ k m : Nat, flagTrace cfg s sched = List.replicate k true ++ List.replicate m false := by
  induction sched generalizing s with
  | nil =>
    cases h : s.running
    · exact ⟨0, 1, by simp [flagTrace, h, List.replicate]⟩
    · exact ⟨1, 0, by simp [flagTrace, h, List.replicate]⟩
  | cons t rest ih =>
    cases h : s.running
    · exact ⟨0, (t :: rest).length + 1, by rw [flagTrace_false cfg _ s h]; simp⟩
    · obtain ⟨k, m, e⟩ := ih (step cfg s t)
      exact ⟨k + 1, m, by simp [flagTrace, h, e, List.replicate]⟩

theorem main_clears (cfg : Config) (s : State) (h : s.running = true)
    (h1 : (main cfg s).running = false) : s.mainPc = .m217 := by
  unfold main at h1
  split at h1 <;> (try split at h1) <;> simp_all

/-- C8: the running flag is monotone.  It is `true` at program start; a step
of any thread leaves it as it is or makes it `false`; the only statement that
changes it is line 217 of `main`; once `false` it is `false` after every
further schedule, so along every interleaving the successive values of the
flag are some `true`s followed by some `false`s (one change at most); and
when `main` has gone past line 217 (in particular when it has returned) the
flag is `false`. -/
theorem C8_running_flag_monotone :
    init.running = true
      ∧ (∀ (cfg : Config) (s : State) (t : Tid),
          (step cfg s t).running = s.running ∨ (step cfg s t).running = false)
      ∧ (∀ (cfg : Config) (s : State) (t : Tid),
          s.running = true → (step cfg s t).running = false →
            t = .main ∧ s.mainPc = .m217)
      ∧ (∀ (cfg : Config) (s : State) (sched : List Tid),
          s.running = false → (exec cfg s sched).running = false)
      ∧ (∀ (cfg : Config) (sched : List Tid), ∃ k m : Nat,
          flagTrace cfg init sched = List.replicate k true ++ List.replicate m false)
      ∧ (∀ (cfg : Config) (sched : List Tid),
          beforeStop (run cfg sched).mainPc = false → (run cfg sched).running = false) := by
  refine ⟨rfl, step_running, ?_, exec_running_false,
    fun cfg sched => flagTrace_shape cfg sched init, ?_⟩
  · intro cfg s t h h1
    unfold step at h1
    split at h1
    · rw [h] at h1; simp at h1
    · cases t with
      | main => exact ⟨rfl, main_clears cfg s h h1⟩
      | worker i =>
        simp only at h1
        split at h1
        · rw [thread_work_running, h] at h1; simp at h1
        · rw [h] at h1; simp at h1
  · intro cfg sched hb
    have hf := (MainInv_run cfg sched).flag
    cases hr : (run cfg sched).running
    · rfl
    · rw [hf.1 hr] at hb; simp at hb

/-! ## C7 -/

/-- C7: polling an empty queue.  A worker at the loop test of line 82 that
finds `running == true`, with `work_queue` empty and `queue_lock` free, runs
five statements on its own, without waiting for any other thread: after four
it is at the `sleep_for` of line 94, having executed no job, with the queue
still empty and `queue_lock` released; the fifth is the sleep of 500 ms, after
which it is back at the loop test and only the sleep has been recorded.  Also
statement by statement, whatever the other threads do in between: a size test
that finds the queue empty only moves the worker to the unlock of line 93,
that unlock only releases the lock, and the sleep that follows is of 500 ms
and leads back to the loop test. -/
theorem C7_poll_of_empty_queue (cfg : Config) (s : State) (t : Nat)
    (hna : s.aborted = false) (hpc : s.threads[t]? = some .l82)
    (hrun : s.running = true) (hq : s.work_queue = []) (hl : s.queue_lock = none) :
    exec cfg s (List.replicate 4 (.worker t)) = { s with threads := s.threads.set t .l94 }
      ∧ exec cfg s (List.replicate 5 (.worker t))
        = { s with sleeps := s.sleeps ++ [(.worker t, 500)] }
      ∧ (exec cfg s (List.replicate 5 (.worker t))).work_queue = []
      ∧ (exec cfg s (List.replicate 5 (.worker t))).queue_lock = none
      ∧ (exec cfg s (List.replicate 5 (.worker t))).calls = s.calls
      ∧ (exec cfg s (List.replicate 5 (.worker t))).threads[t]? = some .l82
      ∧ (∀ s1 : State, s1.aborted = false → s1.threads[t]? = some WPc.l85 →
          s1.work_queue = [] →
          step cfg s1 (.worker t) = { s1 with threads := s1.threads.set t .l93 })
      ∧ (∀ s1 : State, s1.aborted = false → s1.threads[t]? = some WPc.l93 →
          step cfg s1 (.worker t)
            = { s1 with threads := s1.threads.set t .l94, queue_lock := none })
      ∧ (∀ s1 : State, s1.aborted = false → s1.threads[t]? = some WPc.l94 →
          step cfg s1 (.worker t)
            = { s1 with threads := s1.threads.set t .l82
                        sleeps := s1.sleeps ++ [(.worker t, 500)] }) := by
  have hlt := lt_of_getElem? hpc
  have hs := set_self_of_getElem? hpc
  have h5 : exec cfg s (List.replicate 5 (.worker t))
      = { s with sleeps := s.sleeps ++ [(.worker t, 500)] } := by
    simp [exec, List.replicate, step, thread_work, setPc, hna, hrun, hq, hl, hpc, hlt, size, hs]
  refine ⟨?_, h5, ?_, ?_, ?_, ?_, ?_, ?_, ?_⟩
  · simp [exec, List.replicate, step, thread_work, setPc, hna, hrun, hq, hl, hpc, hlt, size]
  · rw [h5]; exact hq
  · rw [h5]; exact hl
  · rw [h5]
  · rw [h5]; exact hpc
  · intro s1 h1 h2 h3
    rw [step_worker cfg h1 h2]
    simp [thread_work, h3, size, setPc]
  · intro s1 h1 h2
    rw [step_worker cfg h1 h2]
    simp [thread_work, setPc]
  · intro s1 h1 h2
    rw [step_worker cfg h1 h2]
    simp [thread_work, setPc]

/-- C7 at a concrete state: one worker just spawned, nothing submitted. -/
theorem C7_poll_of_empty_queue_witness :
    exec ⟨1, []⟩ (run ⟨1, []⟩ [.main]) (List.replicate 5 (.worker 0))
      = { run ⟨1, []⟩ [.main] with sleeps := [(.worker 0, 500)] } :=
  (C7_poll_of_empty_queue ⟨1, []⟩ (run ⟨1, []⟩ [.main]) 0 rfl rfl rfl rfl rfl).2.1

/-! ## C3: the call of line 89 -/

/-- C3: executing a job.  At the call of line 89 for the popped unit `w`
the worker invokes `w->func` with argument `w->g`: one entry, with exactly
that function and that argument, is added to the call history, and for
`func_1` .. `func_4` the worker enters the body with the parameter `gen` equal
to `w->g`.  When the payload is absent the job is still executed: with
`output_lock` free the worker runs the call and the body in five statements,
goes from the test of line 112 straight to the unlock of line 116 (the
dereference of line 114 is skipped), prints the header line only and arrives
at `delete w` with one call recorded.  With a payload holding `d` it prints
the header and `d` in six statements.  In every reachable state a function
body that is being run has the function and the argument of its unit. -/
theorem C3_execute_calls_stored_action (cfg : Config) (s : State) (t : Nat)
    (w : work_unit) (hna : s.aborted = false) (hpc : s.threads[t]? = some (.l89 w)) :
    (step cfg s (.worker t)).calls = s.calls ++ [⟨t, w.addr, w.func, w.g⟩]
      ∧ (isJobFunc w.func = true →
          step cfg s (.worker t)
            = { s with calls := s.calls ++ [⟨t, w.addr, w.func, w.g⟩]
                       threads := s.threads.set t (.body w w.func w.g .l109) })
      ∧ (isJobFunc w.func = true → w.g = none → s.output_lock = none →
          exec cfg s (List.replicate 4 (.worker t))
              = { s with calls := s.calls ++ [⟨t, w.addr, w.func, none⟩]
                         threads := s.threads.set t (.body w w.func none .l116)
                         output := s.output ++ [header w.func]
                         output_lock := some (.worker t) }
            ∧ exec cfg s (List.replicate 5 (.worker t))
              = { s with calls := s.calls ++ [⟨t, w.addr, w.func, none⟩]
                         threads := s.threads.set t (.l90 w)
                         output := s.output ++ [header w.func] })
      ∧ (∀ d : String, isJobFunc w.func = true → w.g = some (.hello_string d) →
          s.output_lock = none →
          exec cfg s (List.replicate 6 (.worker t))
            = { s with calls := s.calls ++ [⟨t, w.addr, w.func, some (.hello_string d)⟩]
                       threads := s.threads.set t (.l90 w)
                       output := s.output ++ [header w.func, d] })
      ∧ (∀ (sched : List Tid) (t1 : Nat) (w1 : work_unit) (f : Func)
          (gen : Option generic) (line : FLine),
          (run cfg sched).threads[t1]? = some (.body w1 f gen line) →
            f = w1.func ∧ gen = w1.g) := by
  have hlt := lt_of_getElem? hpc
  obtain ⟨addr, func, g⟩ := w
  refine ⟨?_, ?_, ?_, ?_, ?_⟩
  · rw [step_worker cfg hna hpc]
    simp only [thread_work]
    split <;> simp [setPc, crash]
  · intro hf
    rw [step_worker cfg hna hpc]
    cases func <;> simp_all [thread_work, setPc, isJobFunc]
  · intro hf hg hl
    simp only at hg
    subst hg
    cases func <;>
      simp_all [exec, List.replicate, step, thread_work, func_body, setPc, isJobFunc]
  · intro d hf hg hl
    simp only at hg
    subst hg
    cases func <;>
      simp_all [exec, List.replicate, step, thread_work, func_body, setPc, isJobFunc]
  · intro sched t1 w1 f gen line h
    have := (OutInv_run cfg sched).arg t1 w1 f gen line h
    exact ⟨this.1, this.2.1⟩

/-- C3 at a concrete reachable state: one worker has popped the only job,
`func_1` with a null payload, and is at the call. -/
theorem C3_execute_calls_stored_action_witness :
    (step nullJobConfig (run nullJobConfig nullJobSchedule) (.worker 0)).calls
      = [⟨0, 0, .func_1, none⟩] :=
  (C3_execute_calls_stored_action nullJobConfig (run nullJobConfig nullJobSchedule)
    0 ⟨0, .func_1, none⟩ (by decide) (by decide)).1

/-! ## C10: the queue guard -/

theorem func_body_queue_frame (s : State) (q : List work_unit) (t : Nat) (w : work_unit)
    (f : Func) (gen : Option generic) (line : FLine) :
    func_body { s with work_queue := q } t w f gen line
      = { func_body s t w f gen line with work_queue := q } := by
  cases line <;> simp only [func_body] <;> (try split) <;> simp [setPc, crash]

theorem thread_work_queue_frame (s : State) (q : List work_unit) (t : Nat) (pc : WPc)
    (h : holdsQ pc = false) :
    thread_work { s with work_queue := q } t pc
      = { thread_work s t pc with work_queue := q } := by
  cases pc <;> first
    | (simp [holdsQ] at h; done)
    | exact func_body_queue_frame s q t _ _ _ _
    | (simp only [thread_work] <;> (try split) <;> simp [setPc, crash])

theorem main_queue_frame (cfg : Config) (s : State) (q : List work_unit)
    (h : mainHoldsQ s.mainPc = false) :
    main cfg { s with work_queue := q } = { main cfg s with work_queue := q } := by
  unfold main
  cases hpc : s.mainPc <;> simp only [hpc] at h ⊢ <;>
    first
    | (simp [mainHoldsQ] at h; done)
    | (repeat' split) <;> simp_all

/-- C10: the queue guard discipline.  In every reachable state: a thread
that does not hold `queue_lock` neither reads nor changes `work_queue` with
its next statement (the statement has the same effect whatever the queue
holds and leaves the queue as it is), so every `size()`, `back()`,
`pop_back()` and `push_back()` is made by the holder of the lock; a worker
holds the lock exactly from after line 83 up to the unlock of line 88 or 93,
and `main` exactly from after line 176 up to the unlock of line 208; a worker
that is calling or running a job function, deleting the unit, or sleeping
does not hold the lock; the statement of line 88 releases the lock before the
call of line 89 and the statement of line 93 releases it before the sleep of
line 94. -/
theorem C10_queue_guard_discipline (cfg : Config) (sched : List Tid) :
    (∀ (tid : Tid) (q : List work_unit), (run cfg sched).queue_lock ≠ some tid →
        step cfg { run cfg sched with work_queue := q } tid
          = { step cfg (run cfg sched) tid with work_queue := q })
      ∧ (∀ (t : Nat) (pc : WPc), (run cfg sched).threads[t]? = some pc →
          ((run cfg sched).queue_lock = some (.worker t) ↔ holdsQ pc = true))
      ∧ ((run cfg sched).queue_lock = some .main ↔ mainHoldsQ (run cfg sched).mainPc = true)
      ∧ (∀ (t : Nat) (pc : WPc), (run cfg sched).threads[t]? = some pc →
          executing pc = true ∨ sleeping pc = true ∨ (∃ w, pc = .l90 w) →
          (run cfg sched).queue_lock ≠ some (.worker t))
      ∧ (∀ (t : Nat) (w : work_unit), (run cfg sched).aborted = false →
          (run cfg sched).threads[t]? = some (.l88 w) →
          (run cfg sched).queue_lock = some (.worker t)
            ∧ (step cfg (run cfg sched) (.worker t)).queue_lock = none
            ∧ (step cfg (run cfg sched) (.worker t)).threads[t]? = some (.l89 w))
      ∧ (∀ t : Nat, (run cfg sched).aborted = false →
          (run cfg sched).threads[t]? = some WPc.l93 →
          (run cfg sched).queue_lock = some (.worker t)
            ∧ (step cfg (run cfg sched) (.worker t)).queue_lock = none
            ∧ (step cfg (run cfg sched) (.worker t)).threads[t]? = some WPc.l94) := by
  have inv := LockInv_run cfg sched
  refine ⟨?_, ?_, ?_, ?_, ?_, ?_⟩
  · intro tid q hne
    unfold step
    cases ha : (run cfg sched).aborted
    · cases tid with
      | main =>
        simp only [Bool.false_eq_true, if_false]
        apply main_queue_frame
        cases hm : mainHoldsQ (run cfg sched).mainPc
        · rfl
        · exact absurd (inv.main.1 hm) hne
      | worker t =>
        simp only [Bool.false_eq_true, if_false]
        cases hpc : (run cfg sched).threads[t]? with
        | none => rfl
        | some pc =>
          simp only
          apply thread_work_queue_frame
          cases hq : holdsQ pc
          · rfl
          · exact absurd ((inv.worker t pc hpc).1 hq) hne
    · simp
  · intro t pc h
    exact (inv.worker t pc h).symm
  · exact inv.main.symm
  · intro t pc h hx e
    have hq := (inv.worker t pc h).2 e
    rcases hx with hx | hx | ⟨w, rfl⟩
    · cases pc <;> simp [holdsQ, executing] at hq hx
    · cases pc <;> simp [holdsQ, sleeping] at hq hx
    · simp [holdsQ] at hq
  · intro t w hna h
    have hlt := lt_of_getElem? h
    refine ⟨(inv.worker t _ h).1 rfl, ?_, ?_⟩
    · rw [step_worker cfg hna h]; rfl
    · rw [step_worker cfg hna h]; simp [thread_work, setPc, hlt]
  · intro t hna h
    have hlt := lt_of_getElem? h
    refine ⟨(inv.worker t _ h).1 rfl, ?_, ?_⟩
    · rw [step_worker cfg hna h]; rfl
    · rw [step_worker cfg hna h]; simp [thread_work, setPc, hlt]

/-! ## C2: no unit is lost or duplicated -/

theorem countP_pos_of_getElem? {α : Type} (p : α → Bool) {l : List α} {t : Nat} {x : α}
    (h : l[t]? = some x) (hp : p x = true) : 0 < l.countP p :=
  List.countP_pos_iff.2 ⟨x, List.getElem?_mem h, hp⟩

theorem countP_eq_zero_of_all {α : Type} (p : α → Bool) {l : List α}
    (h : ∀ x ∈ l, p x = false) : l.countP p = 0 := by
  rw [List.countP_eq_zero]
  intro x hx
  simp [h x hx]

theorem JobInv_count_le_one {cfg : Config} {s : State} (inv : JobInv cfg s) (a : Nat) :
    (queued s ++ executed s).count a ≤ 1 := by
  have := inv.counts a
  rw [List.count_append]
  split_ifs at this <;> omega

theorem submitted_le {cfg : Config} {s : State} (minv : MainInv cfg s) :
    submitted cfg s ≤ cfg.jobs.length := by
  unfold submitted
  split <;> first
    | exact Nat.zero_le _
    | exact Nat.le_refl _
    | exact minv.bound _ ‹_›

theorem accounting_after_join (cfg : Config) (sched : List Tid)
    (hm : (run cfg sched).mainPc = .m226 ∨ (run cfg sched).mainPc = .exited) :
    (run cfg sched).calls.length + (run cfg sched).work_queue.length
      = cfg.jobs.length := by
  have inv := JobInv_run cfg sched
  have minv := MainInv_run cfg sched
  have hl := inv.lengths
  have hdone := minv.all_joined hm
  have h0 : inflight (run cfg sched) = 0 := by
    unfold inflight
    apply countP_eq_zero_of_all
    intro pc hpc
    rw [hdone pc hpc]
    rfl
  have hs : submitted cfg (run cfg sched) = cfg.jobs.length := by
    unfold submitted
    rcases hm with e | e <;> rw [e]
  omega

theorem sourceJobs_length (rand : Nat → Nat) : (sourceJobs rand).length = 50 := by
  simp [sourceJobs]

/-- C2: no job is lost or duplicated.  In every state reached by any
interleaving of the statements of `main` (which submits the jobs of the
configuration, any number of them) and of any number of workers: the units
whose function has been called, the units held by a worker between its
`pop_back()` and its call, and the units in `work_queue` are together as many
as the units submitted so far; so whenever no worker is between pop and call,
that is between two of the claim's pop-and-execute steps, executed plus
queued equals submitted; the addresses in the queue and in the call history
are pairwise distinct (no unit is executed twice, none is executed and still
queued) and all belong to submitted units; and once `main` has joined the
workers, executed plus left in the queue equals the number of jobs, which is
50 for the jobs of the source. -/
theorem C2_no_job_lost_or_duplicated (cfg : Config) (sched : List Tid) :
    (run cfg sched).calls.length + inflight (run cfg sched)
        + (run cfg sched).work_queue.length = submitted cfg (run cfg sched)
      ∧ (inflight (run cfg sched) = 0 →
          (run cfg sched).calls.length + (run cfg sched).work_queue.length
            = submitted cfg (run cfg sched))
      ∧ (queued (run cfg sched) ++ executed (run cfg sched)).Nodup
      ∧ (executed (run cfg sched)).Nodup
      ∧ (∀ a ∈ queued (run cfg sched) ++ executed (run cfg sched),
          a < submitted cfg (run cfg sched))
      ∧ submitted cfg (run cfg sched) ≤ cfg.jobs.length
      ∧ ((run cfg sched).mainPc = .m226 ∨ (run cfg sched).mainPc = .exited →
          (run cfg sched).calls.length + (run cfg sched).work_queue.length
            = cfg.jobs.length)
      ∧ (∀ (rand : Nat → Nat) (sched0 : List Tid),
          (run (sourceConfig rand) sched0).mainPc = .exited →
          (run (sourceConfig rand) sched0).calls.length
            + (run (sourceConfig rand) sched0).work_queue.length = 50) := by
  have inv := JobInv_run cfg sched
  have minv := MainInv_run cfg sched
  have hl := inv.lengths
  have hnd : (queued (run cfg sched) ++ executed (run cfg sched)).Nodup :=
    List.nodup_iff_count_le_one.2 (JobInv_count_le_one inv)
  refine ⟨by omega, fun h => by omega, hnd, (List.nodup_append.1 hnd).2.1, ?_,
    submitted_le minv, accounting_after_join cfg sched, ?_⟩
  · intro a ha
    have hc := inv.counts a
    have hpos : 0 < (queued (run cfg sched) ++ executed (run cfg sched)).count a :=
      List.count_pos_iff.2 ha
    rw [List.count_append] at hpos
    by_contra hlt
    rw [if_neg hlt] at hc
    omega
  · intro rand sched0 hm
    have := accounting_after_join (sourceConfig rand) sched0 (Or.inr hm)
    rw [this]
    exact sourceJobs_length rand

set_option maxRecDepth 8000 in
/-- C2 on a complete run of one worker and two jobs: `main` has returned,
both jobs have been executed, in the order last pushed first, none is left. -/
theorem C2_no_job_lost_or_duplicated_witness :
    (run drainConfig drainSchedule).mainPc = .exited
      ∧ executed (run drainConfig drainSchedule) = [1, 0]
      ∧ (run drainConfig drainSchedule).calls.length
          + (run drainConfig drainSchedule).work_queue.length = 2 :=
  ⟨by decide, by decide,
   (C2_no_job_lost_or_duplicated drainConfig drainSchedule).2.2.2.2.2.2.1
     (Or.inr (by decide))⟩

/-! ## After an exception -/

/-- What a statement of `main` leaves alone. -/
theorem main_effect (cfg : Config) (s : State) :
    (main cfg s).calls = s.calls ∧ (main cfg s).deleted = s.deleted
      ∧ (main cfg s).freed = s.freed
      ∧ ((main cfg s).threads = s.threads ∨ (main cfg s).threads = s.threads ++ [.l82]) := by
  unfold main
  split <;> (try split) <;> simp

/-- What a statement of a worker does to the pool and to the histories of
calls and deletions. -/
theorem thread_work_effect (s : State) (t : Nat) (pc : WPc)
    (h : s.threads[t]? = some pc) :
    ∃ pc1 : WPc, (thread_work s t pc).threads = s.threads.set t pc1
      ∧ (((thread_work s t pc).calls = s.calls
            ∧ (postAddr pc1 = postAddr pc ∨ postAddr pc1 = none))
          ∨ ∃ w : work_unit, pc = .l89 w
              ∧ (thread_work s t pc).calls = s.calls ++ [⟨t, w.addr, w.func, w.g⟩]
              ∧ (postAddr pc1 = some w.addr ∨ postAddr pc1 = none))
      ∧ ((thread_work s t pc).deleted = s.deleted
          ∨ ∃ w : work_unit, pc = .l90 w
              ∧ (thread_work s t pc).deleted = s.deleted ++ [w.addr]) := by
  have hself := (set_self_of_getElem? h).symm
  cases pc with
  | l89 w =>
    simp only [thread_work]
    split
    · exact ⟨.crashed, rfl, Or.inr ⟨w, rfl, rfl, Or.inr rfl⟩, Or.inl rfl⟩
    · exact ⟨.l90 w, rfl, Or.inr ⟨w, rfl, rfl, Or.inl rfl⟩, Or.inl rfl⟩
    · exact ⟨_, rfl, Or.inr ⟨w, rfl, rfl, Or.inl rfl⟩, Or.inl rfl⟩
  | l90 w =>
    exact ⟨.l82, rfl, Or.inl ⟨rfl, Or.inr rfl⟩, Or.inr ⟨w, rfl, rfl⟩⟩
  | body w f gen line =>
    cases line <;> simp only [thread_work, func_body] <;> (try split) <;>
      first
      | exact ⟨_, hself, Or.inl ⟨rfl, Or.inl rfl⟩, Or.inl rfl⟩
      | exact ⟨_, rfl, Or.inl ⟨rfl, Or.inl rfl⟩, Or.inl rfl⟩
      | exact ⟨_, rfl, Or.inl ⟨rfl, Or.inr rfl⟩, Or.inl rfl⟩
  | done => exact ⟨.done, hself, Or.inl ⟨rfl, Or.inl rfl⟩, Or.inl rfl⟩
  | crashed => exact ⟨.crashed, hself, Or.inl ⟨rfl, Or.inl rfl⟩, Or.inl rfl⟩
  | _ =>
    simp only [thread_work]
    (try split) <;>
      first
      | exact ⟨_, hself, Or.inl ⟨rfl, Or.inl rfl⟩, Or.inl rfl⟩
      | exact ⟨_, rfl, Or.inl ⟨rfl, Or.inl rfl⟩, Or.inl rfl⟩

/-- A worker that has left `thread_work` by an exception stays where it is,
whatever thread runs next, and the step adds no call of that worker. -/
theorem step_keeps_crashed (cfg : Config) (s : State) (tid : Tid) (t : Nat)
    (h : s.threads[t]? = some WPc.crashed) :
    (step cfg s tid).threads[t]? = some WPc.crashed
      ∧ callsOf t (step cfg s tid) = callsOf t s := by
  unfold step
  split
  · exact ⟨h, rfl⟩
  · cases tid with
    | main =>
      simp only
      obtain ⟨h1, _, _, h4⟩ := main_effect cfg s
      refine ⟨?_, by simp [callsOf, h1]⟩
      rcases h4 with e | e
      · rw [e]; exact h
      · rw [e, List.getElem?_append_left (lt_of_getElem? h)]; exact h
    | worker i =>
      simp only
      split
      · rename_i pc hpc
        by_cases e : i = t
        · subst e
          rw [h] at hpc
          cases Option.some.inj hpc
          exact ⟨h, rfl⟩
        · obtain ⟨pc1, k1, k2, _⟩ := thread_work_effect s i pc hpc
          refine ⟨by rw [k1, List.getElem?_set_ne e]; exact h, ?_⟩
          rcases k2 with ⟨k2, _⟩ | ⟨w, _, k2, _⟩
          · simp [callsOf, k2]
          · simp [callsOf, k2, List.filter_append, e]
      · exact ⟨h, rfl⟩

theorem exec_keeps_crashed (cfg : Config) (t : Nat) (sched : List Tid) (s : State)
    (h : s.threads[t]? = some WPc.crashed) :
    (exec cfg s sched).threads[t]? = some WPc.crashed
      ∧ callsOf t (exec cfg s sched) = callsOf t s := by
  induction sched generalizing s with
  | nil => exact ⟨h, rfl⟩
  | cons x rest ih =>
    obtain ⟨h1, h2⟩ := step_keeps_crashed cfg s x t h
    obtain ⟨k1, k2⟩ := ih (step cfg s x) h1
    rw [exec_cons]
    exact ⟨k1, k2.trans h2⟩

/-- A unit that has been called and is in no worker's hands is never
deleted, whatever the other threads do. -/
theorem Leaked_step {cfg : Config} {s : State} {a : Nat} (inv : JobInv cfg s)
    (h : Leaked a s) (tid : Tid) : Leaked a (step cfg s tid) := by
  obtain ⟨hex, hpost, hdel⟩ := h
  have hexc : 0 < (executed s).count a := List.count_pos_iff.2 hex
  unfold step
  split
  · exact ⟨hex, hpost, hdel⟩
  · cases tid with
    | main =>
      simp only
      obtain ⟨h1, h2, _, h4⟩ := main_effect cfg s
      refine ⟨by simpa [executed, h1] using hex, ?_, by rw [h2]; exact hdel⟩
      rcases h4 with e | e
      · rw [e]; exact hpost
      · rw [e, List.countP_append, hpost]; simp [postAddr]
    | worker i =>
      simp only
      split
      · rename_i pc hpc
        obtain ⟨pc1, k1, k2, k3⟩ := thread_work_effect s i pc hpc
        have hset := countP_set_add (fun pc => decide (postAddr pc = some a)) s.threads
          i pc pc1 hpc
        simp only [decide_eq_true_eq] at hset
        have hcnt := inv.counts a
        have hle : (if a < submitted cfg s then 1 else 0) ≤ 1 := by split_ifs <;> omega
        refine ⟨?_, ?_, ?_⟩
        · rcases k2 with ⟨k2, _⟩ | ⟨w, _, k2, _⟩
          · simpa [executed, k2] using hex
          · simp only [executed, k2, List.map_append, List.mem_append]
            exact Or.inl hex
        · rw [k1]
          rcases k2 with ⟨_, k2 | k2⟩ | ⟨w, rfl, _, k2⟩
          · rw [k2] at hset; omega
          · rw [k2] at hset
            simp only [reduceCtorEq, if_false] at hset
            omega
          · by_cases e : w.addr = a
            · have hp := countP_pos_of_getElem? (fun pc => decide (preAddr pc = some a))
                hpc (by simp [preAddr, e])
              omega
            · have hne : postAddr pc1 ≠ some a := by
                rcases k2 with k2 | k2 <;> rw [k2] <;> simp [e]
              have h0 : postAddr (WPc.l89 w) ≠ some a := by simp [postAddr]
              rw [if_neg hne, if_neg h0] at hset
              omega
        · rcases k3 with k3 | ⟨w, rfl, k3⟩
          · rw [k3]; exact hdel
          · rw [k3]
            intro hmem
            rcases List.mem_append.1 hmem with hm | hm
            · exact hdel hm
            · simp only [List.mem_singleton] at hm
              have hp := countP_pos_of_getElem? (fun pc => decide (postAddr pc = some a))
                hpc (by simp [postAddr, hm])
              omega
      · exact ⟨hex, hpost, hdel⟩

/-- With every worker returned or gone and `main` past line 208, no schedule
changes the pool, the queue or the histories of calls and deletions. -/
theorem step_no_worker_left (cfg : Config) (s : State) (tid : Tid)
    (hw : ∀ pc ∈ s.threads, pc = WPc.crashed ∨ pc = WPc.done)
    (hm : afterSubmit s.mainPc = true) :
    (step cfg s tid).threads = s.threads ∧ (step cfg s tid).work_queue = s.work_queue
      ∧ (step cfg s tid).calls = s.calls ∧ (step cfg s tid).deleted = s.deleted
      ∧ (step cfg s tid).freed = s.freed ∧ afterSubmit (step cfg s tid).mainPc = true := by
  unfold step
  split
  · exact ⟨rfl, rfl, rfl, rfl, rfl, hm⟩
  · cases tid with
    | main =>
      simp only
      unfold main
      split <;> (try split) <;> simp_all [afterSubmit]
    | worker i =>
      simp only
      split
      · rename_i pc h
        rcases hw pc (List.getElem?_mem h) with e | e <;> subst e <;>
          exact ⟨rfl, rfl, rfl, rfl, rfl, hm⟩
      · exact ⟨rfl, rfl, rfl, rfl, rfl, hm⟩

theorem exec_no_worker_left (cfg : Config) (sched : List Tid) (s : State)
    (hw : ∀ pc ∈ s.threads, pc = WPc.crashed ∨ pc = WPc.done)
    (hm : afterSubmit s.mainPc = true) :
    (exec cfg s sched).threads = s.threads ∧ (exec cfg s sched).work_queue = s.work_queue
      ∧ (exec cfg s sched).calls = s.calls ∧ (exec cfg s sched).deleted = s.deleted
      ∧ (exec cfg s sched).freed = s.freed := by
  induction sched generalizing s with
  | nil => exact ⟨rfl, rfl, rfl, rfl, rfl⟩
  | cons t rest ih =>
    obtain ⟨h1, h2, h3, h4, h5, h6⟩ := step_no_worker_left cfg s t hw hm
    obtain ⟨k1, k2, k3, k4, k5⟩ := ih (step cfg s t) (by rw [h1]; exact hw) h6
    rw [exec_cons]
    exact ⟨k1.trans h1, k2.trans h2, k3.trans h3, k4.trans h4, k5.trans h5⟩

/-! ## C5: deletion of a unit -/

/-- C5 fails when the function raises: one worker pops the only job, whose
function raises and which has a payload; the call is recorded, the worker has
left `thread_work`, and after every further schedule neither the unit nor its
payload has been released. -/
theorem C5_counterexample_raising_job_leaks :
    executed (run raisingJobConfig raisingJobSchedule) = [0]
      ∧ (run raisingJobConfig raisingJobSchedule).threads = [.crashed]
      ∧ (∀ more : List Tid,
          (exec raisingJobConfig (run raisingJobConfig raisingJobSchedule) more).deleted = []
            ∧ (exec raisingJobConfig (run raisingJobConfig raisingJobSchedule) more).freed
              = []) := by
  refine ⟨by decide, by decide, ?_⟩
  intro more
  obtain ⟨_, _, _, h4, h5⟩ := exec_no_worker_left raisingJobConfig more
    (run raisingJobConfig raisingJobSchedule) (by decide) (by decide)
  exact ⟨h4.trans (by decide), h5.trans (by decide)⟩

theorem run_append (cfg : Config) (sched more : List Tid) :
    exec cfg (run cfg sched) more = run cfg (sched ++ more) := by
  unfold run
  rw [exec_append]

theorem Leaked_exec (cfg : Config) (sched more : List Tid) (a : Nat)
    (h : Leaked a (run cfg sched)) : Leaked a (exec cfg (run cfg sched) more) := by
  induction more using List.reverseRecOn with
  | nil => exact h
  | append_singleton rest x ih =>
    rw [exec_snoc]
    have inv : JobInv cfg (exec cfg (run cfg sched) rest) := by
      rw [run_append]; exact JobInv_run cfg _
    exact Leaked_step inv ih x

/-- C5, amended: a popped unit is destroyed, with its payload, once, after
its function has returned.  In every reachable state no address occurs twice
among the deleted units or among the released payloads, every deleted unit
has been called and every released payload belongs to a deleted unit; a
function that returns (an external one, or `func_1` .. `func_4` at the unlock
of line 116) brings the worker to `delete w`; there the unit, not deleted
before, is deleted and `~work_unit` releases its payload when it is present,
and the worker goes back to the loop test; when the function raises,
`delete w` is not reached: the unit had not been deleted, and after every
further schedule, whatever the other threads do, the unit is not among the
deleted ones and its payload is not among the released ones. -/
theorem C5_unit_deleted_once_after_return (cfg : Config) (sched : List Tid) :
    (run cfg sched).deleted.Nodup
      ∧ (run cfg sched).freed.Nodup
      ∧ (∀ a ∈ (run cfg sched).deleted, a ∈ executed (run cfg sched))
      ∧ (∀ a ∈ (run cfg sched).freed, a ∈ (run cfg sched).deleted)
      ∧ (∀ (t : Nat) (w : work_unit), (run cfg sched).aborted = false →
          (run cfg sched).threads[t]? = some (.l89 w) → w.func = .foreign false →
          (step cfg (run cfg sched) (.worker t)).threads[t]? = some (.l90 w))
      ∧ (∀ (t : Nat) (w : work_unit) (f : Func) (gen : Option generic),
          (run cfg sched).aborted = false →
          (run cfg sched).threads[t]? = some (.body w f gen .l116) →
          (step cfg (run cfg sched) (.worker t)).threads[t]? = some (.l90 w))
      ∧ (∀ (t : Nat) (w : work_unit), (run cfg sched).aborted = false →
          (run cfg sched).threads[t]? = some (.l90 w) →
          w.addr ∉ (run cfg sched).deleted
            ∧ step cfg (run cfg sched) (.worker t)
              = { run cfg sched with
                  threads := (run cfg sched).threads.set t .l82
                  deleted := (run cfg sched).deleted ++ [w.addr]
                  freed := (run cfg sched).freed ++ destroyed w })
      ∧ (∀ (t : Nat) (w : work_unit), (run cfg sched).aborted = false →
          (run cfg sched).threads[t]? = some (.l89 w) → w.func = .foreign true →
          w.addr ∉ (run cfg sched).deleted
            ∧ ∀ more : List Tid,
              w.addr ∉ (exec cfg (step cfg (run cfg sched) (.worker t)) more).deleted
                ∧ w.addr ∉ (exec cfg (step cfg (run cfg sched) (.worker t)) more).freed) := by
  have inv := JobInv_run cfg sched
  have hex : ∀ a, (executed (run cfg sched)).count a ≤ 1 := by
    intro a
    have := JobInv_count_le_one inv a
    rw [List.count_append] at this
    omega
  have hdel : ∀ a, (run cfg sched).deleted.count a ≤ 1 := by
    intro a
    have := inv.post a
    have := hex a
    omega
  refine ⟨List.nodup_iff_count_le_one.2 hdel, ?_, ?_, ?_, ?_, ?_, ?_, ?_⟩
  · refine List.nodup_iff_count_le_one.2 fun a => ?_
    have := inv.freed a
    have := hdel a
    omega
  · intro a ha
    have h1 := List.count_pos_iff.2 ha
    have := inv.post a
    exact List.count_pos_iff.1 (by omega)
  · intro a ha
    have h1 := List.count_pos_iff.2 ha
    have := inv.freed a
    exact List.count_pos_iff.1 (by omega)
  · intro t w hna hpc hf
    have hlt := lt_of_getElem? hpc
    rw [step_worker cfg hna hpc]
    simp [thread_work, hf, setPc, hlt]
  · intro t w f gen hna hpc
    have hlt := lt_of_getElem? hpc
    rw [step_worker cfg hna hpc]
    simp [thread_work, func_body, setPc, hlt]
  · intro t w hna hpc
    constructor
    · intro hmem
      have h1 := List.count_pos_iff.2 hmem
      have h2 := countP_pos_of_getElem? (fun pc => decide (postAddr pc = some w.addr)) hpc
        (by simp [postAddr])
      have := inv.post w.addr
      have := hex w.addr
      omega
    · rw [step_worker cfg hna hpc]
      simp only [thread_work, setPc]
  · intro t w hna hpc hf
    have h2 := countP_pos_of_getElem? (fun pc => decide (preAddr pc = some w.addr)) hpc
      (by simp [preAddr])
    have hpost := inv.post w.addr
    have hcnt := inv.counts w.addr
    have hle : (if w.addr < submitted cfg (run cfg sched) then 1 else 0) ≤ 1 := by
      split_ifs <;> omega
    have hnd : w.addr ∉ (run cfg sched).deleted := by
      intro hmem
      have h1 := List.count_pos_iff.2 hmem
      omega
    refine ⟨hnd, ?_⟩
    have hs : step cfg (run cfg sched) (.worker t)
        = { run cfg sched with
            calls := (run cfg sched).calls ++ [⟨t, w.addr, w.func, w.g⟩]
            threads := (run cfg sched).threads.set t .crashed } := by
      rw [step_worker cfg hna hpc]
      simp [thread_work, hf, crash, setPc]
    have hrun : step cfg (run cfg sched) (.worker t) = run cfg (sched ++ [.worker t]) := by
      unfold run
      rw [exec_snoc]
    have hleak : Leaked w.addr (run cfg (sched ++ [.worker t])) := by
      rw [← hrun, hs]
      refine ⟨by simp [executed], ?_, hnd⟩
      have hset := countP_set_add (fun pc => decide (postAddr pc = some w.addr))
        (run cfg sched).threads t _ .crashed hpc
      simp only [decide_eq_true_eq, postAddr, reduceCtorEq, if_false] at hset
      simp only [postAddr] at hpost ⊢
      omega
    intro more
    rw [hrun]
    have hl := Leaked_exec cfg (sched ++ [.worker t]) more w.addr hleak
    refine ⟨hl.2.2, ?_⟩
    intro hmem
    have h1 := List.count_pos_iff.2 hmem
    have hinv : JobInv cfg (exec cfg (run cfg (sched ++ [.worker t])) more) := by
      rw [run_append]; exact JobInv_run cfg _
    have := hinv.freed w.addr
    exact hl.2.2 (List.count_pos_iff.1 (by omega))

set_option maxRecDepth 8000 in
/-- C5, amended, on a complete run of one worker and two jobs whose functions
return: both units have been deleted, the one payload has been released, and
nothing twice. -/
theorem C5_unit_deleted_once_after_return_witness :
    (run drainConfig drainSchedule).deleted = [1, 0]
      ∧ (run drainConfig drainSchedule).freed = [0]
      ∧ (run drainConfig drainSchedule).deleted.Nodup :=
  ⟨by decide, by decide, (C5_unit_deleted_once_after_return drainConfig drainSchedule).1⟩

/-! ## C6: shutdown does not drain the queue -/

theorem step_after_shutdown (cfg : Config) (s : State) (t : Tid)
    (hdone : ∀ pc ∈ s.threads, pc = WPc.done) (hm : beforeStop s.mainPc = false) :
    (step cfg s t).threads = s.threads ∧ (step cfg s t).work_queue = s.work_queue
      ∧ (step cfg s t).calls = s.calls ∧ beforeStop (step cfg s t).mainPc = false := by
  unfold step
  split
  · exact ⟨rfl, rfl, rfl, hm⟩
  · cases t with
    | main =>
      simp only
      unfold main
      split <;> (try split) <;> simp_all [beforeStop]
    | worker i =>
      simp only
      split
      · rename_i pc h
        have := hdone pc (List.getElem?_mem h)
        subst this
        exact ⟨rfl, rfl, rfl, hm⟩
      · exact ⟨rfl, rfl, rfl, hm⟩

theorem exec_after_shutdown (cfg : Config) (sched : List Tid) (s : State)
    (hdone : ∀ pc ∈ s.threads, pc = WPc.done) (hm : beforeStop s.mainPc = false) :
    (exec cfg s sched).threads = s.threads ∧ (exec cfg s sched).work_queue = s.work_queue
      ∧ (exec cfg s sched).calls = s.calls := by
  induction sched generalizing s with
  | nil => exact ⟨rfl, rfl, rfl⟩
  | cons t rest ih =>
    obtain ⟨h1, h2, h3, h4⟩ := step_after_shutdown cfg s t hdone hm
    obtain ⟨k1, k2, k3⟩ := ih (step cfg s t) (by rw [h1]; exact hdone) h4
    rw [exec_cons]
    exact ⟨k1.trans h1, k2.trans h2, k3.trans h3⟩

theorem exec_done_worker (cfg : Config) (t : Nat) (sched : List Tid) (s : State)
    (h : s.threads[t]? = some WPc.done) (hs : ∀ x ∈ sched, x = Tid.worker t) :
    exec cfg s sched = s := by
  induction sched with
  | nil => rfl
  | cons x rest ih =>
    have hx := hs x (List.mem_cons_self _ _)
    subst hx
    have : step cfg s (.worker t) = s := by
      unfold step
      split
      · rfl
      · simp [h, thread_work]
    rw [exec_cons, this]
    exact ih fun y hy => hs y (List.mem_cons_of_mem _ hy)

/-- C6: shutdown does not drain the queue.  From a reachable state in which
`running` is `false` and every worker has left its loop, whatever the queue
holds, every further schedule leaves `work_queue` and the call history as
they are and the workers stopped: the jobs still queued are never executed.
A worker whose loop test of line 82 reads `running == false` only moves to
the end of `thread_work` (no lock taken, queue not touched, no call), and a
worker that has returned never changes the state again. -/
theorem C6_shutdown_does_not_drain (cfg : Config) (sched more : List Tid)
    (hstop : (run cfg sched).running = false)
    (hdone : ∀ pc ∈ (run cfg sched).threads, pc = WPc.done) :
    (exec cfg (run cfg sched) more).work_queue = (run cfg sched).work_queue
      ∧ (exec cfg (run cfg sched) more).calls = (run cfg sched).calls
      ∧ (exec cfg (run cfg sched) more).threads = (run cfg sched).threads
      ∧ (∀ (s : State) (t : Nat), s.aborted = false → s.threads[t]? = some WPc.l82 →
          s.running = false →
          step cfg s (.worker t) = { s with threads := s.threads.set t .done })
      ∧ (∀ (s : State) (t : Nat) (again : List Tid), s.threads[t]? = some WPc.done →
          (∀ x ∈ again, x = Tid.worker t) → exec cfg s again = s) := by
  have hm : beforeStop (run cfg sched).mainPc = false := by
    have hf := (MainInv_run cfg sched).flag
    cases hb : beforeStop (run cfg sched).mainPc
    · rfl
    · rw [hf.2 hb] at hstop; simp at hstop
  obtain ⟨h1, h2, h3⟩ := exec_after_shutdown cfg more (run cfg sched) hdone hm
  refine ⟨h2, h3, h1, ?_, ?_⟩
  · intro s t hna hpc hr
    rw [step_worker cfg hna hpc]
    simp [thread_work, hr, setPc]
  · intro s t again h hs
    exact exec_done_worker cfg t again s h hs

/-- C6 at a concrete reachable state: `main` has submitted one job and
cleared `running` before the only worker ran its loop test; the worker has
stopped and the job stays in the queue, never executed, while `main` joins
and returns. -/
theorem C6_shutdown_does_not_drain_witness :
    (run lateWorkerConfig lateWorkerSchedule).work_queue
        = [⟨0, .func_1, some (.hello_string "a")⟩]
      ∧ (exec lateWorkerConfig (run lateWorkerConfig lateWorkerSchedule)
          [.main, .worker 0, .main, .main]).work_queue
        = (run lateWorkerConfig lateWorkerSchedule).work_queue
      ∧ (exec lateWorkerConfig (run lateWorkerConfig lateWorkerSchedule)
          [.main, .worker 0, .main, .main]).calls = [] :=
  ⟨by decide,
   (C6_shutdown_does_not_drain lateWorkerConfig lateWorkerSchedule
      [.main, .worker 0, .main, .main] (by decide) (by decide)).1,
   ((C6_shutdown_does_not_drain lateWorkerConfig lateWorkerSchedule
      [.main, .worker 0, .main, .main] (by decide) (by decide)).2.1).trans (by decide)⟩

/-! ## C4: an error raised by a job -/

/-- After an exception the other workers go on: with two workers, worker 0
pops the raising job and calls it, and worker 1 then pops the probe job, runs
it, prints its two lines and deletes it with its payload. -/
theorem other_worker_runs_after_exception :
    (run twoWorkersProbeConfig twoWorkersProbeSchedule).threads = [.crashed, .l82]
      ∧ (run twoWorkersProbeConfig twoWorkersProbeSchedule).output
        = ["Function 1 doing work", "probe"]
      ∧ (run twoWorkersProbeConfig twoWorkersProbeSchedule).deleted = [0]
      ∧ (run twoWorkersProbeConfig twoWorkersProbeSchedule).freed = [0] :=
  ⟨by decide, by decide, by decide, by decide⟩

/-- C4 fails: `main` submits `func_1` with payload `"probe"` and then a job
whose function raises; the one worker pops the raising job (the last pushed)
and calls it.  The exception leaves `thread_work`: the worker has not gone on
to a next iteration, the probe job is still in the queue and, after every
further schedule, the worker is where it was, the probe job is still in the
queue and the only call ever made is the one that raised. -/
theorem C4_counterexample_error_ends_worker :
    (run probeConfig probeSchedule).threads = [.crashed]
      ∧ (run probeConfig probeSchedule).work_queue
        = [⟨0, .func_1, some (.hello_string "probe")⟩]
      ∧ (run probeConfig probeSchedule).calls = [⟨0, 1, .foreign true, none⟩]
      ∧ (∀ more : List Tid,
          (exec probeConfig (run probeConfig probeSchedule) more).threads = [.crashed]
            ∧ (exec probeConfig (run probeConfig probeSchedule) more).work_queue
              = [⟨0, .func_1, some (.hello_string "probe")⟩]
            ∧ (exec probeConfig (run probeConfig probeSchedule) more).calls
              = [⟨0, 1, .foreign true, none⟩]) := by
  refine ⟨by decide, by decide, by decide, ?_⟩
  intro more
  obtain ⟨h1, h2, h3, _, _⟩ := exec_no_worker_left probeConfig more
    (run probeConfig probeSchedule) (by decide) (by decide)
  exact ⟨h1.trans (by decide), h2.trans (by decide), h3.trans (by decide)⟩

/-- C4, amended: the worker goes on after a job only when the job's function
returns.  From the call of line 89: a function that returns (an external one,
or `func_1` .. `func_4`, which print under `output_lock` and return) is
followed by `delete w` and the worker is back at its loop test; a function
that raises ends the worker at the call: the call is recorded, and after
every further schedule, whatever the other threads do, the worker is still
where the exception left it and has made no other call. -/
theorem C4_worker_continues_only_after_return (cfg : Config) (s : State) (t : Nat)
    (w : work_unit) (hna : s.aborted = false) (hpc : s.threads[t]? = some (.l89 w)) :
    (w.func = .foreign false →
        exec cfg s (List.replicate 2 (.worker t))
          = { s with calls := s.calls ++ [⟨t, w.addr, w.func, w.g⟩]
                     deleted := s.deleted ++ [w.addr]
                     freed := s.freed ++ destroyed w
                     threads := s.threads.set t .l82 })
      ∧ (isJobFunc w.func = true → w.g = none → s.output_lock = none →
          exec cfg s (List.replicate 6 (.worker t))
            = { s with calls := s.calls ++ [⟨t, w.addr, w.func, w.g⟩]
                       output := s.output ++ [header w.func]
                       deleted := s.deleted ++ [w.addr]
                       freed := s.freed ++ destroyed w
                       threads := s.threads.set t .l82 })
      ∧ (∀ d : String, isJobFunc w.func = true → w.g = some (.hello_string d) →
          s.output_lock = none →
          exec cfg s (List.replicate 7 (.worker t))
            = { s with calls := s.calls ++ [⟨t, w.addr, w.func, w.g⟩]
                       output := s.output ++ [header w.func, d]
                       deleted := s.deleted ++ [w.addr]
                       freed := s.freed ++ destroyed w
                       threads := s.threads.set t .l82 })
      ∧ (w.func = .foreign true →
          step cfg s (.worker t)
              = { s with calls := s.calls ++ [⟨t, w.addr, w.func, w.g⟩]
                         threads := s.threads.set t .crashed }
            ∧ ∀ more : List Tid,
              (exec cfg (step cfg s (.worker t)) more).threads[t]? = some WPc.crashed
                ∧ callsOf t (exec cfg (step cfg s (.worker t)) more)
                  = callsOf t s ++ [⟨t, w.addr, w.func, w.g⟩]) := by
  have hlt := lt_of_getElem? hpc
  obtain ⟨addr, func, g⟩ := w
  refine ⟨?_, ?_, ?_, ?_⟩
  · intro hf
    simp only at hf
    subst hf
    simp [exec, List.replicate, step, thread_work, setPc, hna, hpc, hlt]
  · intro hf hg hl
    simp only at hg
    subst hg
    cases func <;>
      simp_all [exec, List.replicate, step, thread_work, func_body, setPc, isJobFunc]
  · intro d hf hg hl
    simp only at hg
    subst hg
    cases func <;>
      simp_all [exec, List.replicate, step, thread_work, func_body, setPc, isJobFunc]
  · intro hf
    simp only at hf
    subst hf
    have hs : step cfg s (.worker t)
        = { s with calls := s.calls ++ [⟨t, addr, .foreign true, g⟩]
                   threads := s.threads.set t .crashed } := by
      rw [step_worker cfg hna hpc]
      simp [thread_work, crash, setPc]
    refine ⟨hs, fun more => ?_⟩
    have hc : (step cfg s (.worker t)).threads[t]? = some WPc.crashed := by
      rw [hs]; simp [hlt]
    obtain ⟨k1, k2⟩ := exec_keeps_crashed cfg t more _ hc
    refine ⟨k1, ?_⟩
    rw [k2, hs]
    simp [callsOf, List.filter_append]

/-- C4, amended, at a concrete reachable state: the worker of `probeConfig`
is at the call of the raising job; the call ends the worker. -/
theorem C4_worker_continues_only_after_return_witness :
    (step probeConfig (run probeConfig probeScheduleBeforeCall) (.worker 0)).threads
      = [.crashed] :=
  (congrArg State.threads
    ((C4_worker_continues_only_after_return probeConfig
      (run probeConfig probeScheduleBeforeCall) 0 ⟨1, .foreign true, none⟩
      (by decide) (by decide)).2.2.2 rfl).1).trans (by decide)

/-! ## C9: output of concurrently running jobs -/

theorem jobProgress_facts {w : work_unit} {pc : WPc} {W : List String} {st : Nat}
    (h : jobProgress w pc = some (W, st)) :
    st ≤ 2 ∧ (st = 0 → W = []) ∧ (st = 2 → W = jobOutput w.func w.g)
      ∧ (st = 2 → pc = .l90 w) ∧ (pc = .l90 w → st = 2) := by
  cases pc with
  | l89 w1 =>
    simp only [jobProgress] at h
    split at h <;> simp at h
    obtain ⟨rfl, rfl⟩ := h
    simp
  | l90 w1 =>
    simp only [jobProgress] at h
    split at h <;> simp at h
    obtain ⟨rfl, rfl⟩ := h
    simp_all
  | body w1 f gen line =>
    simp only [jobProgress] at h
    split at h
    · cases line <;> simp only at h
      · simp at h; obtain ⟨rfl, rfl⟩ := h; simp
      · simp at h; obtain ⟨rfl, rfl⟩ := h; simp
      · simp at h; obtain ⟨rfl, rfl⟩ := h; simp
      · split at h <;> simp at h
        obtain ⟨rfl, rfl⟩ := h; simp
      · simp at h; obtain ⟨rfl, rfl⟩ := h; simp
    · simp at h
  | _ => simp [jobProgress] at h

theorem jobStep_eq_step (cfg : Config) {s : State} {t : Nat} {pc : WPc}
    (hna : s.aborted = false) (hpc : s.threads[t]? = some pc) (he : executing pc = true) :
    jobStep cfg s t = thread_work s t pc := by
  simp [jobStep, hpc, he, step, hna]

theorem jobStep_eq_self (cfg : Config) {s : State} {t : Nat} {pc : WPc}
    (hpc : s.threads[t]? = some pc) (he : executing pc = false) :
    jobStep cfg s t = s := by
  simp [jobStep, hpc, he]

/-- What one step of a job does: nothing observable, or the job takes
`output_lock` (which was free), or it prints one line while it holds the
lock, or it releases the lock having printed everything. -/
theorem jobStep_progress (cfg : Config) (s : State) (a : Nat) (wa : work_unit)
    (pa : WPc) (W : List String) (st : Nat) (hna : s.aborted = false)
    (hpa : s.threads[a]? = some pa) (hp : jobProgress wa pa = some (W, st))
    (hf : isJobFunc wa.func = true) :
    ∃ (pa1 : WPc) (W1 : List String) (st1 : Nat),
      (jobStep cfg s a).threads = s.threads.set a pa1
        ∧ jobProgress wa pa1 = some (W1, st1)
        ∧ (jobStep cfg s a).aborted = false
        ∧ ((st1 = st ∧ W1 = W ∧ (jobStep cfg s a).output = s.output
              ∧ (jobStep cfg s a).output_lock = s.output_lock)
          ∨ (st = 0 ∧ st1 = 1 ∧ W1 = W ∧ s.output_lock = none
              ∧ (jobStep cfg s a).output_lock = some (.worker a)
              ∧ (jobStep cfg s a).output = s.output)
          ∨ (st = 1 ∧ st1 = 1 ∧ ∃ x, W1 = W ++ [x]
              ∧ (jobStep cfg s a).output = s.output ++ [x]
              ∧ (jobStep cfg s a).output_lock = s.output_lock)
          ∨ (st = 1 ∧ st1 = 2 ∧ W1 = W ∧ (jobStep cfg s a).output = s.output
              ∧ (jobStep cfg s a).output_lock = none)) := by
  have hself := set_self_of_getElem? hpa
  cases pa with
  | l89 w1 =>
    simp only [jobProgress] at hp
    split at hp <;> simp at hp
    rename_i hw
    subst hw
    obtain ⟨rfl, rfl⟩ := hp
    rw [jobStep_eq_step cfg hna hpa rfl]
    refine ⟨.body w1 w1.func w1.g .l109, [], 0, ?_, by simp [jobProgress], ?_, Or.inl ?_⟩
    · cases hfun : w1.func <;> simp_all [thread_work, setPc, isJobFunc]
    · cases hfun : w1.func <;> simp_all [thread_work, setPc, isJobFunc]
    · cases hfun : w1.func <;> simp_all [thread_work, setPc, isJobFunc]
  | l90 w1 =>
    rw [jobStep_eq_self cfg hpa rfl]
    exact ⟨.l90 w1, W, st, hself.symm, hp, hna, Or.inl ⟨rfl, rfl, rfl, rfl⟩⟩
  | body w1 f gen line =>
    simp only [jobProgress] at hp
    split at hp
    · rename_i hw
      obtain ⟨rfl, rfl, rfl⟩ := hw
      rw [jobStep_eq_step cfg hna hpa rfl]
      cases line with
      | l109 =>
        simp at hp
        obtain ⟨rfl, rfl⟩ := hp
        cases hl : s.output_lock with
        | none =>
          refine ⟨.body w1 w1.func w1.g .l110, [], 1, ?_, by simp [jobProgress], ?_,
            Or.inr (Or.inl ?_)⟩ <;> simp [thread_work, func_body, hl, setPc, hna]
        | some o =>
          refine ⟨.body w1 w1.func w1.g .l109, [], 0, ?_, by simp [jobProgress], ?_,
            Or.inl ?_⟩ <;> simp [thread_work, func_body, hl, hna, hself]
      | l110 =>
        simp at hp
        obtain ⟨rfl, rfl⟩ := hp
        refine ⟨.body w1 w1.func w1.g .l112, [header w1.func], 1, ?_, by simp [jobProgress],
          ?_, Or.inr (Or.inr (Or.inl ?_))⟩ <;> simp [thread_work, func_body, setPc, hna]
      | l112 =>
        simp at hp
        obtain ⟨rfl, rfl⟩ := hp
        cases hg : w1.g with
        | none =>
          refine ⟨.body w1 w1.func w1.g .l116, [header w1.func], 1, ?_,
            by simp [jobProgress, hg, jobOutput], ?_, Or.inl ?_⟩ <;>
            simp [thread_work, func_body, setPc, hna, hg]
        | some x =>
          refine ⟨.body w1 w1.func w1.g .l114, [header w1.func], 1, ?_,
            by simp [jobProgress, hg], ?_, Or.inl ?_⟩ <;>
            simp [thread_work, func_body, setPc, hna, hg]
      | l114 =>
        cases hg : w1.g with
        | none => simp [hg] at hp
        | some x =>
          cases x with
          | hello_string d =>
            simp [hg] at hp
            obtain ⟨rfl, rfl⟩ := hp
            refine ⟨.body w1 w1.func w1.g .l116, [header w1.func, d], 1, ?_,
              by simp [jobProgress, hg, jobOutput], ?_, Or.inr (Or.inr (Or.inl ?_))⟩ <;>
              simp [thread_work, func_body, setPc, hna, hg]
      | l116 =>
        simp at hp
        obtain ⟨rfl, rfl⟩ := hp
        refine ⟨.l90 w1, jobOutput w1.func w1.g, 2, ?_, by simp [jobProgress], ?_,
          Or.inr (Or.inr (Or.inr ?_))⟩ <;> simp [thread_work, func_body, setPc, hna]
    · simp at hp
  | _ => simp [jobProgress] at hp

theorem TwoJobs_symm {o : List String} {a b : Nat} {wa wb : work_unit} {s : State}
    (h : TwoJobs o a b wa wb s) : TwoJobs o b a wb wa s := by
  obtain ⟨pa, pb, Wa, Wb, sa, sb, h1, h2, h3, h4, h5, h6, h7, h8, h9⟩ := h
  exact ⟨pb, pa, Wb, Wa, sb, sa, h2, h1, h4, h3, h5, h7, h6, fun x y => h8 y x, h9.symm⟩

theorem TwoJobs_jobStep (cfg : Config) {o : List String} {a b : Nat}
    {wa wb : work_unit} {s : State} (hab : a ≠ b) (hfa : isJobFunc wa.func = true)
    (h : TwoJobs o a b wa wb s) : TwoJobs o a b wa wb (jobStep cfg s a) := by
  obtain ⟨pa, pb, Wa, Wb, sa, sb, h1, h2, h3, h4, h5, h6, h7, h8, h9⟩ := h
  obtain ⟨pa1, W1, st1, k1, k2, k3, k4⟩ := jobStep_progress cfg s a wa pa Wa sa h5 h1 h3 hfa
  have hlt := lt_of_getElem? h1
  have fa := jobProgress_facts h3
  have fb := jobProgress_facts h4
  have hb1 : (jobStep cfg s a).threads[b]? = some pb := by
    rw [k1, List.getElem?_set_ne hab]; exact h2
  have ha1 : (jobStep cfg s a).threads[a]? = some pa1 := by
    rw [k1, List.getElem?_set_self hlt]
  have hne : (some (Tid.worker a) : Option Tid) ≠ some (Tid.worker b) := by
    intro e
    injection e with e
    injection e with e
    exact hab e
  refine ⟨pa1, pb, W1, Wb, st1, sb, ha1, hb1, k2, h4, k3, ?_⟩
  rcases k4 with ⟨e1, e2, e3, e4⟩ | ⟨e1, e2, e3, e4, e5, e6⟩ | ⟨e1, e2, x, e3, e4, e5⟩
    | ⟨e1, e2, e3, e4, e5⟩
  · -- nothing observable
    subst e1 e2
    rw [e3, e4]
    exact ⟨h6, h7, h8, h9⟩
  · -- the lock is taken
    subst e1 e2 e3
    have hsb : sb ≠ 1 := fun e => by rw [h7 e] at e4; simp at e4
    have hW : W1 = [] := fa.2.1 rfl
    rw [e5, e6]
    refine ⟨fun _ => rfl, fun e => absurd e hsb, fun e => absurd rfl e, ?_⟩
    rcases h9 with ⟨q1, q2⟩ | ⟨q1, q2⟩
    · left
      rcases q2 with q2 | q2
      · exact ⟨q1, Or.inl q2⟩
      · omega
    · rcases q2 with q2 | q2
      · by_cases hs2 : sb = 2
        · right; exact ⟨q1, Or.inr hs2⟩
        · left
          have hs0 : sb = 0 := by omega
          have hWb : Wb = [] := fb.2.1 hs0
          subst hW hWb
          exact ⟨q1, Or.inl hs0⟩
      · right; exact ⟨q1, Or.inr q2⟩
  · -- a line is printed
    subst e1 e2
    have hl := h6 rfl
    rw [e4, e5]
    refine ⟨h6, h7, h8, ?_⟩
    rcases h9 with ⟨q1, q2⟩ | ⟨q1, q2⟩
    · left
      rcases q2 with q2 | q2
      · have hWb : Wb = [] := fb.2.1 q2
        subst hWb
        rw [q1, e3]
        exact ⟨by simp, Or.inl q2⟩
      · omega
    · right
      rcases q2 with q2 | q2
      · omega
      · rw [q1, e3]
        exact ⟨by simp, Or.inr q2⟩
  · -- the lock is released
    subst e1 e2 e3
    have hl := h6 rfl
    have hsb : sb ≠ 1 := fun e => by rw [h7 e] at hl; exact hne hl.symm
    rw [e4, e5]
    refine ⟨fun e => by omega, fun e => absurd e hsb, fun _ _ => rfl, ?_⟩
    rcases h9 with ⟨q1, q2⟩ | ⟨q1, q2⟩
    · left; exact ⟨q1, Or.inr rfl⟩
    · right
      rcases q2 with q2 | q2
      · omega
      · exact ⟨q1, Or.inr q2⟩

theorem TwoJobs_execJobs (cfg : Config) {o : List String} {a b : Nat}
    {wa wb : work_unit} (hab : a ≠ b) (hfa : isJobFunc wa.func = true)
    (hfb : isJobFunc wb.func = true) (sched : List Nat)
    (hs : ∀ x ∈ sched, x = a ∨ x = b) (s : State) (h : TwoJobs o a b wa wb s) :
    TwoJobs o a b wa wb (execJobs cfg s sched) := by
  induction sched generalizing s with
  | nil => exact h
  | cons x rest ih =>
    have hrest : ∀ y ∈ rest, y = a ∨ y = b := fun y hy => hs y (List.mem_cons_of_mem _ hy)
    have hstep : TwoJobs o a b wa wb (jobStep cfg s x) := by
      rcases hs x (List.mem_cons_self _ _) with e | e
      · subst e; exact TwoJobs_jobStep cfg hab hfa h
      · subst e
        exact TwoJobs_symm (TwoJobs_jobStep cfg (Ne.symm hab) hfb (TwoJobs_symm h))
    exact ih hrest _ hstep

theorem thread_work_output_frame (s : State) (t : Nat) (pc : WPc)
    (h : holdsOut pc = false) : (thread_work s t pc).output = s.output := by
  cases pc with
  | body w f gen line =>
    cases line <;> first
      | (simp [holdsOut] at h; done)
      | (simp only [thread_work, func_body]; split <;> rfl)
  | _ => simp only [thread_work] <;> (try split) <;> rfl

/-- C9: the output of two concurrently running jobs does not interleave.
Two different workers `a` and `b` are at the call of line 89 for units whose
functions are among `func_1` .. `func_4`, each payload present or absent, and
`output_lock` is free.  After every interleaving of the statements of the two
jobs that brings both to the end of their functions, the output is the
output before, followed by everything one job prints (its header line, then
its payload line when the payload is present), followed by everything the
other prints.  And in every reachable state a worker holds `output_lock`
exactly from after the `lock()` of line 109, which precedes the first write,
up to the `unlock()` of line 116, which follows the last, whether the payload
is present or not; a worker that does not hold `output_lock` prints nothing
with its next statement. -/
theorem C9_job_output_not_interleaved (cfg : Config) (s : State) (a b : Nat)
    (wa wb : work_unit) (sched : List Nat) (hab : a ≠ b) (hna : s.aborted = false)
    (ha : s.threads[a]? = some (.l89 wa)) (hb : s.threads[b]? = some (.l89 wb))
    (hfa : isJobFunc wa.func = true) (hfb : isJobFunc wb.func = true)
    (hl : s.output_lock = none) (hs : ∀ x ∈ sched, x = a ∨ x = b)
    (hda : (execJobs cfg s sched).threads[a]? = some (.l90 wa))
    (hdb : (execJobs cfg s sched).threads[b]? = some (.l90 wb)) :
    ((execJobs cfg s sched).output
          = s.output ++ jobOutput wa.func wa.g ++ jobOutput wb.func wb.g
        ∨ (execJobs cfg s sched).output
          = s.output ++ jobOutput wb.func wb.g ++ jobOutput wa.func wa.g)
      ∧ (∀ (sched0 : List Tid) (t : Nat) (pc : WPc),
          (run cfg sched0).threads[t]? = some pc →
          ((run cfg sched0).output_lock = some (.worker t) ↔ holdsOut pc = true))
      ∧ (∀ (sched0 : List Tid) (t : Nat),
          (run cfg sched0).output_lock ≠ some (.worker t) →
          (step cfg (run cfg sched0) (.worker t)).output = (run cfg sched0).output) := by
  refine ⟨?_, ?_, ?_⟩
  · have h0 : TwoJobs s.output a b wa wb s :=
      ⟨.l89 wa, .l89 wb, [], [], 0, 0, ha, hb, by simp [jobProgress], by simp [jobProgress],
        hna, by simp, by simp, fun _ _ => hl, Or.inl ⟨by simp, Or.inl rfl⟩⟩
    obtain ⟨pa, pb, Wa, Wb, sa, sb, h1, h2, h3, h4, _, _, _, _, h9⟩ :=
      TwoJobs_execJobs cfg hab hfa hfb sched hs s h0
    rw [hda] at h1
    rw [hdb] at h2
    cases Option.some.inj h1
    cases Option.some.inj h2
    have fa := jobProgress_facts h3
    have fb := jobProgress_facts h4
    have ea : Wa = jobOutput wa.func wa.g := fa.2.2.1 (fa.2.2.2.2 rfl)
    have eb : Wb = jobOutput wb.func wb.g := fb.2.2.1 (fb.2.2.2.2 rfl)
    subst ea eb
    rcases h9 with ⟨q, _⟩ | ⟨q, _⟩
    · exact Or.inl q
    · exact Or.inr q
  · intro sched0 t pc h
    exact ((OutInv_run cfg sched0).worker t pc h).symm
  · intro sched0 t hne
    unfold step
    split
    · rfl
    · simp only
      split
      · rename_i pc hpc
        apply thread_work_output_frame
        cases hq : holdsOut pc
        · rfl
        · exact absurd (((OutInv_run cfg sched0).worker t pc hpc).1 hq) hne
      · rfl

/-- C9 at a concrete reachable state, for an interleaving in which the second
job tries to take the lock while the first holds it. -/
theorem C9_job_output_not_interleaved_witness :
    (execJobs twoJobsConfig (run twoJobsConfig twoJobsSchedule) twoJobsInterleaving).output
        = (run twoJobsConfig twoJobsSchedule).output
          ++ jobOutput .func_2 none ++ jobOutput .func_1 (some (.hello_string "x"))
      ∨ (execJobs twoJobsConfig (run twoJobsConfig twoJobsSchedule)
          twoJobsInterleaving).output
        = (run twoJobsConfig twoJobsSchedule).output
          ++ jobOutput .func_1 (some (.hello_string "x")) ++ jobOutput .func_2 none :=
  (C9_job_output_not_interleaved twoJobsConfig (run twoJobsConfig twoJobsSchedule) 0 1
    ⟨1, .func_2, none⟩ ⟨0, .func_1, some (.hello_string "x")⟩ twoJobsInterleaving
    (by decide) (by decide) (by decide) (by decide) (by decide) (by decide) (by decide)
    (by decide) (by decide) (by decide)).1

end JobSystem
